import Mathlib

/-
  Verification of the RAG persistence core of the `gen` repository.

  This file gives a shallow embedding, in Lean 4, of three components of the
  repository source:

  * the binary document codec of `rag.go` (`serializeDoc`, `deserializeDoc`),
  * the MMR retrieval helpers of `rag.go` and `utils.go`
    (`dotProduct`, `queryDigest` scoring, `appendToSelection`),
  * the segmented append-only log (`Open`, `Write`, `WriteBatch`, `Read`,
    `Close`, `Sync`, `Segments`, segment cycling and the varint framing).

  Modelling conventions:

  * Go byte strings are `List Nat` with entries below 256; Go `uint64` values
    are `Nat` together with explicit `% 2 ^ 64` or side conditions where the
    width matters.
  * A Go `float32` in the codec is represented by its 32-bit pattern (a `Nat`
    below `2 ^ 32`), because serialization only moves the 4 raw bytes of the
    value; in the MMR scorer the numeric values are represented by exact
    rationals, because only the arithmetic shape of the score is at issue.
  * The gzip compressor of the Go standard library is not part of this
    repository; the codec is parameterized by a compressing function and a
    decompressing function, and theorems assume the round-trip property that
    gzip provides.  A failing decompression carries the error text of the
    first gzip failure point in the source.
  * A Go map of strings is represented as an association list in iteration
    order together with a key-distinctness hypothesis; `m[k] = v` is the
    overwrite-or-append operation `mapAssign`.
  * The filesystem directory owned by a log is `Disk`: an association list
    from segment index (the 20-digit file name parsed as a number) to file
    content, in directory-listing order.  File handles, permissions and fsync
    have no observable effect in a run without I/O failures and are modelled
    as identities; `NoSync` is carried but has no model effect.
  * Functions that loop on data are written with an explicit fuel argument
    that is always instantiated with a bound proven sufficient (each frame
    consumes at least one byte), keeping every definition executable by
    kernel reduction.
-/

namespace Gen

/-- Byte strings: each entry is one byte (kept below 256 where it matters). -/
abbrev Bytes := List Nat

/-! ## Little-endian fixed-width integers (encoding/binary, LittleEndian) -/

/-- Little-endian encoding of `x` on exactly `k` bytes (the Go side writes
`uint64` and `float32` values with `binary.Write`, little-endian). -/
def toLEBytes : Nat → Nat → Bytes
  | 0, _ => []
  | k+1, x => (x % 256) :: toLEBytes k (x / 256)

/-- Little-endian decoding of a byte list, as `binary.Read` does. -/
def fromLEBytes : Bytes → Nat
  | [] => 0
  | b :: rest => b + 256 * fromLEBytes rest

/-! ## Document codec (rag.go) -/

/-- The logical `Document` of rag.go, with the scalar type of embedding
entries left as a parameter: the codec stores raw 32-bit patterns (`Nat`),
the MMR scorer computes with exact rationals. -/
structure DocumentF (α : Type) where
  embedding : List α
  content : Bytes
  metadata : List (Bytes × Bytes)
deriving DecidableEq, Repr

/-- Codec-level documents: a float32 is its 32-bit little-endian pattern. -/
abbrev Document := DocumentF Nat

/-- Go map assignment `m[k] = v` on the association-list representation:
overwrite the first binding of `k`, or append a new binding. -/
def mapAssign : List (Bytes × Bytes) → Bytes → Bytes → List (Bytes × Bytes)
  | [], k, v => [(k, v)]
  | (k', v') :: rest, k, v =>
      if k' = k then (k', v) :: rest else (k', v') :: mapAssign rest k v

/-- The serialized form of one metadata binding:
uint64 key length, key bytes, uint64 value length, value bytes. -/
def metaEntryBytes (kv : Bytes × Bytes) : Bytes :=
  toLEBytes 8 kv.1.length ++ kv.1 ++ toLEBytes 8 kv.2.length ++ kv.2

/-- serializeDoc of rag.go: uint64 embedding length, the 4-byte patterns of
the embedding entries, uint64 compressed-content length then the compressed
bytes when the content is nonempty (a plain 0 otherwise), uint64 metadata
count then the key/value records.  `comp` stands for the gzip compressor.
Writing into a `bytes.Buffer` cannot fail, so no error case arises. -/
def serializeDoc (comp : Bytes → Bytes) (doc : Document) : Bytes :=
  toLEBytes 8 doc.embedding.length
  ++ (doc.embedding.map (toLEBytes 4)).flatten
  ++ (if 0 < doc.content.length then
        toLEBytes 8 (comp doc.content).length ++ comp doc.content
      else toLEBytes 8 0)
  ++ (if 0 < doc.metadata.length then
        toLEBytes 8 doc.metadata.length ++ (doc.metadata.map metaEntryBytes).flatten
      else toLEBytes 8 0)

/-- binary.Read of one uint64: consumes exactly 8 bytes or fails
(io.ReadFull reports an unexpected end of data). -/
def readUint64 (buf : Bytes) : Option (Nat × Bytes) :=
  if 8 ≤ buf.length then some (fromLEBytes (buf.take 8), buf.drop 8) else none

/-- binary.Read into a float32 slice of length `n`: consumes exactly `4 * n`
bytes or fails.  Reading one value at a time is equivalent because any
shortage aborts the whole decode. -/
def readFloat32s : Bytes → Nat → Option (List Nat × Bytes)
  | buf, 0 => some ([], buf)
  | buf, n+1 =>
      if 4 ≤ buf.length then
        match readFloat32s (buf.drop 4) n with
        | some (xs, rest) => some (fromLEBytes (buf.take 4) :: xs, rest)
        | none => none
      else none

/-- Model of `buf.Read(p)` on a `bytes.Buffer` into a fresh zeroed slice of
length `n`: it fails (io.EOF) only when the buffer is empty and `n > 0`;
otherwise it copies `min n (length buf)` bytes and leaves the zero fill of
the destination slice in place, without reporting a short read. -/
def bufReadFill (buf : Bytes) (n : Nat) : Option (Bytes × Bytes) :=
  if 0 < n ∧ buf = [] then none
  else some (buf.take n ++ List.replicate (n - buf.length) 0, buf.drop n)

/-- The metadata loop of deserializeDoc: `n` runs of key size, key bytes,
value size, value bytes, each inserted with Go map assignment. -/
def readMetadata (buf : Bytes) (acc : List (Bytes × Bytes)) :
    Nat → Except String (List (Bytes × Bytes) × Bytes)
  | 0 => .ok (acc, buf)
  | n+1 =>
      match readUint64 buf with
      | none => .error "error reading key size"
      | some (keySize, b1) =>
      match bufReadFill b1 keySize with
      | none => .error "error reading key"
      | some (key, b2) =>
      match readUint64 b2 with
      | none => .error "error reading value size"
      | some (valueSize, b3) =>
      match bufReadFill b3 valueSize with
      | none => .error "error reading value"
      | some (value, b4) => readMetadata b4 (mapAssign acc key value) n

/-- deserializeDoc of rag.go.  `decomp` stands for the gzip reader; its
failure carries the message of the first gzip failure point.  The metadata
count is a uint64 that the source converts with `int(...)`: a value at or
above `2 ^ 63` becomes a negative loop bound, so the loop body never runs. -/
def deserializeDoc (decomp : Bytes → Option Bytes) (data : Bytes) :
    Except String Document :=
  match readUint64 data with
  | none => .error "error reading embedding length"
  | some (embLen, b1) =>
  match readFloat32s b1 embLen with
  | none => .error "error reading embedding"
  | some (emb, b2) =>
  match readUint64 b2 with
  | none => .error "error reading content length"
  | some (contentLen, b3) =>
  match (if 0 < contentLen then
          match bufReadFill b3 contentLen with
          | none => Except.error "error reading compressed content"
          | some (cb, b4) =>
              match decomp cb with
              | none => Except.error "error creating gzip reader"
              | some c => Except.ok (c, b4)
        else Except.ok (([] : Bytes), b3)) with
  | .error e => .error e
  | .ok (content, b4) =>
  match readUint64 b4 with
  | none => .error "error reading metadata length"
  | some (metaLen, b5) =>
  match readMetadata b5 [] (if metaLen < 2 ^ 63 then metaLen else 0) with
  | .error e => .error e
  | .ok (meta, _) => .ok ⟨emb, content, meta⟩

/-! ## MMR retrieval (rag.go queryDigest scoring, utils.go appendToSelection) -/

/-- MMR-level documents: embedding entries as exact rational values. -/
abbrev QDocument := DocumentF ℚ

/-- QueryResult of rag.go: a document paired with its MMR score. -/
structure QueryResult where
  doc : QDocument
  mmr : ℚ
deriving DecidableEq, Repr

/-- dotProduct of rag.go.  The Go loop runs over the indices of `a` and reads
`b[i]`; every caller passes equal-length vectors (a shorter `b` would make
the Go code fault rather than return a value). -/
def dotProduct (a b : List ℚ) : ℚ :=
  (a.zip b).foldl (fun acc p => acc + p.1 * p.2) 0

/-- Descending-score comparison used by the sort inside appendToSelection
(sort.Slice with less given by mmr of i greater than mmr of j; the order of
equal scores is unspecified upstream, and the properties at issue hold for
every sorted order). -/
def mmrGE (a b : QueryResult) : Prop := b.mmr ≤ a.mmr

instance : DecidableRel mmrGE := fun a b => inferInstanceAs (Decidable (b.mmr ≤ a.mmr))

instance : IsTotal QueryResult mmrGE := ⟨fun a b => le_total b.mmr a.mmr⟩

instance : IsTrans QueryResult mmrGE := ⟨fun _ _ _ h1 h2 => le_trans h2 h1⟩

/-- appendToSelection of utils.go: append the item, sort the whole list by
descending score, and return the first k entries (the source slices to k only
when the length exceeds k; `List.take k` is that in both cases). -/
def appendToSelection (selection : List QueryResult) (item : QueryResult) (k : Nat) :
    List QueryResult :=
  (List.insertionSort mmrGE (selection ++ [item])).take k

/-- The per-record score computed inside the queryDigest scan loop: sim2
starts at 0 (a float64 zero) and is folded with math.Max over the entries of
the caller-supplied accumulator `cand`; the score is
lam * dot(query, e) - (1 - lam) * sim2. -/
def mmrScore (lam : ℚ) (q e : List ℚ) (cand : List QueryResult) : ℚ :=
  lam * dotProduct q e
    - (1 - lam) * (cand.foldl (fun m c => max m (dotProduct e c.doc.embedding)) 0)

/-- The queryDigest scan over the records decoded in segment order: every
decoded record is scored against the query vector and the caller-supplied
accumulator and folded into the bounded selection, which starts empty. -/
def queryDigestScan (docs : List QDocument) (q : List ℚ) (cand : List QueryResult)
    (k : Nat) (lam : ℚ) : List QueryResult :=
  docs.foldl
    (fun sel doc => appendToSelection sel ⟨doc, mmrScore lam q doc.embedding cand⟩ k) []

/-- The redundancy term the claim prescribes: the maximum of the dot products
with the already-selected results (taken as 0 when none are selected, the
only reading that makes the empty case meaningful). -/
def specRedundancy (e : List ℚ) (cand : List QueryResult) : ℚ :=
  match cand with
  | [] => 0
  | c :: cs =>
      cs.foldl (fun m x => max m (dotProduct e x.doc.embedding))
        (dotProduct e c.doc.embedding)

/-- The per-record score exactly as the claim words it. -/
def specMmrScore (lam : ℚ) (q e : List ℚ) (cand : List QueryResult) : ℚ :=
  lam * dotProduct q e - (1 - lam) * specRedundancy e cand

/-! ## Varint framing (encoding/binary Uvarint and PutUvarint) -/

/-- binary.PutUvarint: emit 7 bits at a time, the high bit marking
continuation.  The fuel only makes the recursion structural; 10 bytes always
suffice for a uint64 and all encoded values are Go slice lengths. -/
def uvarintEncodeAux : Nat → Nat → Bytes
  | 0, x => [x]
  | f+1, x => if x < 128 then [x] else (x % 128 + 128) :: uvarintEncodeAux f (x / 128)

def uvarintEncode (x : Nat) : Bytes := uvarintEncodeAux 10 x

/-- binary.Uvarint loop: `i` counts consumed bytes, `s` is the shift, `x` the
accumulated uint64 (the explicit mod keeps it in range exactly as the Go
variable wraps).  The result is the value and the count of consumed bytes;
`none` stands for the two non-positive counts the Go function returns (0 for
a truncated buffer, negative for an overflow past 10 bytes or past bit 63). -/
def uvarintDecodeAux : Bytes → Nat → Nat → Nat → Option (Nat × Nat)
  | [], _, _, _ => none
  | b :: rest, i, s, x =>
      if i = 10 then none
      else if b < 128 then
        if i = 9 ∧ 1 < b then none
        else some ((x + b * 2 ^ s) % 2 ^ 64, i + 1)
      else uvarintDecodeAux rest (i + 1) (s + 7) ((x + (b % 128) * 2 ^ s) % 2 ^ 64)

def uvarintDecode (data : Bytes) : Option (Nat × Nat) := uvarintDecodeAux data 0 0 0

/-! ## Segmented append-only log (part_005) -/

/-- Byte span of one record inside a segment buffer; the Go struct has
fields pos and end, the latter renamed endp because end is a Lean keyword. -/
structure bpos where
  pos : Nat
  endp : Nat
deriving DecidableEq, Repr

instance : Inhabited bpos := ⟨⟨0, 0⟩⟩

/-- One segment file: parsed index of its 20-digit name, cached content
bytes and cached record spans. -/
structure Segment where
  index : Nat
  cbuf : Bytes
  cpos : List bpos
deriving DecidableEq, Repr

instance : Inhabited Segment := ⟨⟨0, [], []⟩⟩

/-- Options of the log; permission fields are filesystem details with no
model effect and NoSync only controls fsync, which is an identity here. -/
structure Options where
  NoSync : Bool
  SegmentSize : Nat
deriving DecidableEq, Repr

def DefaultOptions : Options := ⟨false, 20971520⟩

/-- validate of part_005: a non-positive segment size falls back to the
default (`Nat` models the Go int, so 0 stands for all non-positive values). -/
def Options.validate (o : Options) : Options :=
  { o with SegmentSize := if o.SegmentSize = 0 then DefaultOptions.SegmentSize else o.SegmentSize }

/-- The log: its segment list plus the closed and corrupt flags.  The tail
file handle is determined by the last segment, so it needs no extra field. -/
structure Log where
  segments : List Segment
  opts : Options
  closed : Bool
  corrupt : Bool
deriving DecidableEq, Repr

/-- The directory of a log: segment file content keyed by the parsed index
of the 20-digit file name, in directory-listing order (zero-padded decimal
names list in increasing numeric order). -/
abbrev Disk := List (Nat × Bytes)

/-- os.ReadFile of the segment file named by `idx`. -/
def diskRead (d : Disk) (idx : Nat) : Option Bytes :=
  match d with
  | [] => none
  | (i, b) :: rest => if i = idx then some b else diskRead rest idx

/-- Appending `bytes` to the file named by `idx` (the tail handle always
sits at the end of its file). -/
def diskWrite (d : Disk) (idx : Nat) (bytes : Bytes) : Disk :=
  match d with
  | [] => []
  | (i, b) :: rest =>
      if i = idx then (i, b ++ bytes) :: rest else (i, b) :: diskWrite rest idx bytes

/-- os.OpenFile with O_CREATE and O_TRUNC: truncate an existing file of that
name, or create a fresh one (new segment indices exceed all existing ones,
so appending keeps listing order). -/
def diskCreate (d : Disk) (idx : Nat) : Disk :=
  match d with
  | [] => [(idx, [])]
  | (i, b) :: rest => if i = idx then (i, []) :: rest else (i, b) :: diskCreate rest idx

/-- The ErrEOF sentinel of part_005 (errors are their message strings). -/
def ErrEOF : String := "end of file reached while reading from log"

/-- appendBinaryEntry: varint payload size, then the payload. -/
def frame (data : Bytes) : Bytes := uvarintEncode data.length ++ data

/-- appendBinaryEntry applied to a running buffer, returning the new buffer
and the span of the appended record. -/
def appendBinaryEntry (dst data : Bytes) : Bytes × bpos :=
  (dst ++ frame data, ⟨dst.length, (dst ++ frame data).length⟩)

/-- The concatenated framing of a record list (the byte content of a segment
holding exactly those records). -/
def framesOf (rs : List Bytes) : Bytes := (rs.map frame).flatten

/-- The spans the parser associates with a clean run of frames starting at
byte offset `pos`. -/
def spansOf : List Bytes → Nat → List bpos
  | [], _ => []
  | r :: rs, pos => ⟨pos, pos + (frame r).length⟩ :: spansOf rs (pos + (frame r).length)

/-- loadNextBinaryEntry of part_005: the span length of the first frame of
`data`, or a corruption error when the varint is unreadable or the declared
payload exceeds the data that is present. -/
def loadNextBinaryEntry (data : Bytes) : Except String Nat :=
  match uvarintDecode data with
  | none => .error "Log corrupt: unable to read entry size"
  | some (size, n) =>
      if data.length - n < size then .error "Log corrupt: entry size exceeds available data"
      else .ok (n + size)

/-- The parse loop of loadSegmentEntries: walk the buffer frame by frame and
record the spans.  Each frame consumes at least one byte, so a fuel equal to
the data length is enough; the fuel-exhaustion case repeats the unreadable
entry size error and is proven unreachable under that bound. -/
def parseFramesAux : Nat → Bytes → Nat → Except String (List bpos)
  | _, [], _ => .ok []
  | 0, _ :: _, _ => .error "Log corrupt: unable to read entry size"
  | f+1, b :: rest, pos =>
      match loadNextBinaryEntry (b :: rest) with
      | .error e => .error e
      | .ok n =>
          match parseFramesAux f ((b :: rest).drop n) (pos + n) with
          | .error e => .error e
          | .ok spans => .ok (⟨pos, pos + n⟩ :: spans)

def parseFrames (data : Bytes) : Except String (List bpos) := parseFramesAux data.length data 0

/-- loadSegmentEntries of part_005: read the segment file and parse its
frames into the cached buffer and span list. -/
def Log.loadSegmentEntries (d : Disk) (s : Segment) : Except String Segment :=
  match diskRead d s.index with
  | none => .error "file not found"
  | some data =>
      match parseFrames data with
      | .error e => .error e
      | .ok cpos => .ok { s with cbuf := data, cpos := cpos }

/-- Log.load: discover segment files (a valid 20-digit name parses to a
nonzero index), create segment 1 when none exist, otherwise open the last
segment for appending and parse its records eagerly.  Open is load after
directory creation and option validation. -/
def loadLog (d : Disk) (opts : Options) : Except String (Log × Disk) :=
  let segs := d.filterMap
    (fun f => if f.1 = 0 then none else some (⟨f.1, [], []⟩ : Segment))
  if segs.isEmpty then
    .ok (⟨[⟨1, [], []⟩], opts, false, false⟩, diskCreate d 1)
  else
    match Log.loadSegmentEntries d (segs.getLastD default) with
    | .error e => .error e
    | .ok lseg => .ok (⟨segs.dropLast ++ [lseg], opts, false, false⟩, d)

/-- Open of part_005 on a directory state (MkdirAll and path resolution
cannot fail in the model). -/
def Open (d : Disk) (opts : Option Options) : Except String (Log × Disk) :=
  loadLog d ((opts.getD DefaultOptions).validate)

def Log.Segments (l : Log) : Nat := l.segments.length

/-- Close: sync and close the tail handle (identities here), set the closed
flag; closing twice or closing a corrupt log reports an error. -/
def Log.Close (l : Log) : (Except String Unit) × Log :=
  if l.closed then
    ((if l.corrupt then .error "Closing corrupt log" else .error "Closing already closed log"), l)
  else
    ((if l.corrupt then .error "Closing corrupt log" else .ok ()), { l with closed := true })

/-- One iteration of the writeBatch loop over the entries: append the frame
to the tail cache; if the cache reaches the segment size, flush the bytes
written since `mark` and cycle to a fresh tail with the next index.  The
state carries the earlier segments, the tail, the directory and the mark. -/
def writeStep (S : Nat) (st : List Segment × Segment × Disk × Nat) (data : Bytes) :
    List Segment × Segment × Disk × Nat :=
  let done := st.1
  let s := st.2.1
  let d := st.2.2.1
  let mark := st.2.2.2
  let cbuf := s.cbuf ++ frame data
  let s' : Segment := ⟨s.index, cbuf, s.cpos ++ [(⟨s.cbuf.length, cbuf.length⟩ : bpos)]⟩
  if S ≤ cbuf.length then
    let d1 := diskWrite d s'.index (cbuf.drop mark)
    (done ++ [s'], (⟨s'.index + 1, [], []⟩ : Segment), diskCreate d1 (s'.index + 1), 0)
  else (done, s', d, mark)

/-- writeBatch of part_005 (the unexported worker): cycle first if the tail
cache already exceeds the segment size, then run the entry loop, then flush
whatever of the tail cache is newer than the mark.  Sync is an identity, and
I/O cannot fail in the model, so no error case arises. -/
def Log.writeBatch (l : Log) (d : Disk) (b : List Bytes) : Log × Disk :=
  let s0 := l.segments.getLastD default
  let done0 := l.segments.dropLast
  let pre :=
    if l.opts.SegmentSize < s0.cbuf.length then
      (done0 ++ [s0], (⟨s0.index + 1, [], []⟩ : Segment), diskCreate d (s0.index + 1))
    else (done0, s0, d)
  let st := b.foldl (writeStep l.opts.SegmentSize) (pre.1, pre.2.1, pre.2.2, pre.2.1.cbuf.length)
  let done2 := st.1
  let s2 := st.2.1
  let d2 := st.2.2.1
  let mark2 := st.2.2.2
  let d3 := if 0 < s2.cbuf.length - mark2 then diskWrite d2 s2.index (s2.cbuf.drop mark2) else d2
  ({ l with segments := done2 ++ [s2] }, d3)

/-- Write: stage the single record in the reusable batch and run the worker
(the data length may be zero; the worker is called unconditionally). -/
def Log.Write (l : Log) (d : Disk) (data : Bytes) : Except String (Log × Disk) :=
  if l.corrupt then .error "Writing to corrupt log"
  else if l.closed then .error "Writing to closed log"
  else .ok (l.writeBatch d [data])

/-- WriteBatch: the exported entry point; a batch whose concatenated data is
empty returns at once.  The corrupt message keeps the spelling of the
source.  A batch is the list of its entries (the source keeps sizes plus one
concatenated data buffer, an equivalent representation). -/
def Log.WriteBatch (l : Log) (d : Disk) (b : List Bytes) : Except String (Log × Disk) :=
  if l.corrupt then .error "Batch write to corrput log"
  else if l.closed then .error "Batch write to closed log"
  else if b.flatten.length = 0 then .ok (l, d)
  else .ok (l.writeBatch d b)

/-- The binary search of findSegment, with fuel making the loop structural
(each pass shrinks j - i, so segment count + 1 passes always reach i = j). -/
def findSegmentLoop (segs : List Segment) (target : Nat) : Nat → Nat → Nat → Nat
  | 0, i, _ => i - 1
  | f+1, i, j =>
      if i < j then
        let h := i + (j - i) / 2
        if (segs.getD h default).index ≤ target then findSegmentLoop segs target f (h + 1) j
        else findSegmentLoop segs target f i h
      else i - 1

def Log.findSegment (l : Log) (target : Nat) : Nat :=
  findSegmentLoop l.segments target (l.segments.length + 1) 0 l.segments.length

/-- loadSegment of part_005: any index at or past the tail index resolves to
the tail; otherwise binary-search the segment and lazily parse its file into
the cache on first access. -/
def Log.loadSegment (l : Log) (d : Disk) (index : Nat) : Except String (Segment × Log) :=
  let lseg := l.segments.getLastD default
  if lseg.index ≤ index then .ok (lseg, l)
  else
    let idx := l.findSegment index
    let s := l.segments.getD idx default
    if s.cpos.length = 0 then
      match Log.loadSegmentEntries d s with
      | .error e => .error e
      | .ok s' => .ok (s', { l with segments := l.segments.set idx s' })
    else .ok (s, l)

/-- Read of part_005: flag checks, segment 0 rejection, segment resolution,
then the end-of-segment sentinel or the payload sliced out of the cached
span (the copy into the fresh size-length slice takes exactly size bytes). -/
def Log.Read (l : Log) (d : Disk) (segment index : Nat) : Except String (Bytes × Log) :=
  if l.corrupt then .error "Reading from corrupt log"
  else if l.closed then .error "Reading from closed log"
  else if segment = 0 then .error "Segment not found while reading from log"
  else
    match l.loadSegment d segment with
    | .error e => .error e
    | .ok (s, lv) =>
        if s.cpos.length ≤ index then .error ErrEOF
        else
          let cp := s.cpos.getD index default
          let edata := (s.cbuf.drop cp.pos).take (cp.endp - cp.pos)
          match uvarintDecode edata with
          | none => .error "Log corrupt: unable to read entry size"
          | some (size, n) =>
              if edata.length - n < size then
                .error "Log corrupt: entry size exceeds available data"
              else .ok ((edata.drop n).take size, lv)

/-- Sync: flag checks then an fsync of the tail file (an identity here). -/
def Log.Sync (l : Log) : Except String Unit :=
  if l.corrupt then .error "Syncing corrupt log"
  else if l.closed then .error "Syncing closed log"
  else .ok ()

/-- Reading one segment sequentially from record position `idx` upward until
the first error (the end-of-segment sentinel), threading the log state that
lazy loading updates.  The fuel is instantiated with a proven bound. -/
def scanSeg (d : Disk) (s : Nat) : Nat → Nat → Log → List Bytes × Log
  | 0, _, l => ([], l)
  | f+1, idx, l =>
      match l.Read d s idx with
      | .ok (data, lv) =>
          let p := scanSeg d s f (idx + 1) lv
          (data :: p.1, p.2)
      | .error _ => ([], l)

/-- The sequential reading protocol of the spec: segments 1 up to Segments,
record indices 0 upward until the sentinel, concatenating the records. -/
def scanLog (l : Log) (d : Disk) (fuel : Nat) : List Bytes × Log :=
  (List.range l.Segments).foldl
    (fun acc k =>
      let p := scanSeg d (k + 1) fuel 0 acc.2
      (acc.1 ++ p.1, p.2)) ([], l)

/-- A freshly opened one-segment log with segment size 4, used by the
concrete write and rotation theorems below. -/
def freshLog : Log := ⟨[⟨1, [], []⟩], ⟨false, 4⟩, false, false⟩

def freshDisk : Disk := [(1, [])]

/-- A reopened two-segment log whose non-tail segment file holds the corrupt
byte run [5] (a declared 5-byte payload with nothing after it), while the
loaded tail holds the single record [8]. -/
def corruptDemoLog : Log :=
  ⟨[⟨1, [], []⟩, ⟨2, frame [8], [⟨0, 2⟩]⟩], ⟨false, 20971520⟩, false, false⟩

def corruptDemoDisk : Disk := [(1, [5]), (2, frame [8])]

/-! ### Partition views used by the restart theorems -/

/-- The fully cached segment list a record partition denotes, indices
starting at `i` (the in-memory state of a log that wrote the records). -/
def buildSegs : Nat → List (List Bytes) → List Segment
  | _, [] => []
  | i, rs :: rest => ⟨i, framesOf rs, spansOf rs 0⟩ :: buildSegs (i + 1) rest

/-- The directory content a record partition denotes. -/
def buildDisk : Nat → List (List Bytes) → Disk
  | _, [] => []
  | i, rs :: rest => (i, framesOf rs) :: buildDisk (i + 1) rest

/-- The discovery view of a directory: one segment stub per file. -/
def emptySegs : Nat → List (List Bytes) → List Segment
  | _, [] => []
  | i, _ :: rest => ⟨i, [], []⟩ :: emptySegs (i + 1) rest

/-- The reopened segment list: the first `j` segments and the tail are
cached, the remaining non-tail segments await their lazy load. -/
def buildPartial : Nat → Nat → List (List Bytes) → List Segment
  | _, _, [] => []
  | _, i, [rs] => [⟨i, framesOf rs, spansOf rs 0⟩]
  | j, i, rs :: r2 :: rest =>
      (if j = 0 then (⟨i, [], []⟩ : Segment) else ⟨i, framesOf rs, spansOf rs 0⟩)
        :: buildPartial (j - 1) (i + 1) (r2 :: rest)

/-- The open, healthy log over a record partition. -/
def logOf (opts : Options) (rss : List (List Bytes)) : Log :=
  ⟨buildSegs 1 rss, opts, false, false⟩

/-- The partition update one appended record performs: cycle first when the
tail cache strictly exceeds the segment size, append the record to the
tail, and cycle after when the cache reached the size (writeBatch on a
one-entry batch realizes exactly this update). -/
def pushRecord (S : Nat) (rss : List (List Bytes)) (r : Bytes) : List (List Bytes) :=
  let rs0 := rss.getLastD []
  let init := rss.dropLast
  let p :=
    if S < (framesOf rs0).length then (init ++ [rs0], ([] : List Bytes)) else (init, rs0)
  if S ≤ (framesOf p.2 ++ frame r).length then p.1 ++ [p.2 ++ [r], []]
  else p.1 ++ [p.2 ++ [r]]

/-- The log state after reopening a directory holding the partition `rss`,
with the first `j` non-tail segments already lazily loaded. -/
def reopenLog (opts : Options) (j : Nat) (rss : List (List Bytes)) : Log :=
  ⟨buildPartial j 1 rss, opts, false, false⟩

/-- Writing a run of records one Write call at a time. -/
def writeAll (l : Log) (d : Disk) (recs : List Bytes) : Except String (Log × Disk) :=
  recs.foldlM (fun st r => Log.Write st.1 st.2 r) (l, d)

/-! ## Theorems -/

theorem toLEBytes_length (k x : Nat) : (toLEBytes k x).length = k := by
  induction k generalizing x with
  | zero => rfl
  | succ k ih => simp [toLEBytes, ih]

theorem fromLE_toLE (k x : Nat) (h : x < 256 ^ k) : fromLEBytes (toLEBytes k x) = x := by
  induction k generalizing x with
  | zero => simp at h; simp [toLEBytes, fromLEBytes, h]
  | succ k ih =>
      simp only [toLEBytes, fromLEBytes]
      rw [ih (x / 256) (by
        have : 256 ^ (k+1) = 256 * 256 ^ k := by ring
        omega)]
      omega

/-! ## Codec round-trip lemmas -/

theorem readUint64_spec (n : Nat) (rest : Bytes) (h : n < 2 ^ 64) :
    readUint64 (toLEBytes 8 n ++ rest) = some (n, rest) := by
  have hl : (toLEBytes 8 n).length = 8 := toLEBytes_length 8 n
  have ht := List.take_left (toLEBytes 8 n) rest
  have hd := List.drop_left (toLEBytes 8 n) rest
  rw [hl] at ht hd
  rw [readUint64, if_pos (by simp [List.length_append, hl]), ht, hd,
    fromLE_toLE 8 n (by norm_num at h ⊢; exact h)]

theorem readFloat32s_spec (xs : List Nat) (rest : Bytes) (h : ∀ x ∈ xs, x < 2 ^ 32) :
    readFloat32s ((xs.map (toLEBytes 4)).flatten ++ rest) xs.length = some (xs, rest) := by
  induction xs with
  | nil => simp [readFloat32s]
  | cons x xs ih =>
      have hl : (toLEBytes 4 x).length = 4 := toLEBytes_length 4 x
      have ht := List.take_left (toLEBytes 4 x) ((xs.map (toLEBytes 4)).flatten ++ rest)
      have hd := List.drop_left (toLEBytes 4 x) ((xs.map (toLEBytes 4)).flatten ++ rest)
      rw [hl] at ht hd
      simp only [List.map_cons, List.flatten_cons, List.append_assoc, List.length_cons]
      rw [readFloat32s, if_pos (by simp [List.length_append, hl]), ht, hd,
        ih (fun y hy => h y (List.mem_cons_of_mem _ hy)),
        fromLE_toLE 4 x (by
          have hx := h x (List.mem_cons_self _ _)
          norm_num at hx ⊢
          exact hx)]

theorem bufReadFill_exact (c rest : Bytes) :
    bufReadFill (c ++ rest) c.length = some (c, rest) := by
  rw [bufReadFill, if_neg (by
    rintro ⟨h0, hnil⟩
    rcases c with _ | ⟨b, c⟩
    · exact absurd h0 (by simp)
    · simp at hnil)]
  rw [show c.length - (c ++ rest).length = 0 by simp [List.length_append]]
  rw [List.take_left, List.drop_left]
  simp

theorem mapAssign_notMem (acc : List (Bytes × Bytes)) (k v : Bytes)
    (h : k ∉ acc.map Prod.fst) : mapAssign acc k v = acc ++ [(k, v)] := by
  induction acc with
  | nil => rfl
  | cons p rest ih =>
      obtain ⟨k', v'⟩ := p
      simp only [List.map_cons, List.mem_cons] at h
      push_neg at h
      rw [mapAssign, if_neg (fun hh => h.1 hh.symm), ih h.2]
      simp

theorem readMetadata_spec (md : List (Bytes × Bytes)) (acc : List (Bytes × Bytes))
    (rest : Bytes)
    (hlen : ∀ p ∈ md, p.1.length < 2 ^ 64 ∧ p.2.length < 2 ^ 64)
    (hnd : (md.map Prod.fst).Nodup)
    (hdisj : ∀ p ∈ md, p.1 ∉ acc.map Prod.fst) :
    readMetadata ((md.map metaEntryBytes).flatten ++ rest) acc md.length
      = .ok (acc ++ md, rest) := by
  induction md generalizing acc with
  | nil => simp [readMetadata]
  | cons kv md ih =>
      obtain ⟨k, v⟩ := kv
      have hk : k.length < 2 ^ 64 := by simpa using (hlen (k, v) (List.mem_cons_self _ _)).1
      have hv : v.length < 2 ^ 64 := by simpa using (hlen (k, v) (List.mem_cons_self _ _)).2
      simp only [List.map_cons, List.flatten_cons, metaEntryBytes, Prod.fst, Prod.snd,
        List.append_assoc, List.length_cons]
      rw [readMetadata, readUint64_spec k.length _ hk]
      dsimp only
      rw [bufReadFill_exact k]
      dsimp only
      rw [readUint64_spec v.length _ hv]
      dsimp only
      rw [bufReadFill_exact v]
      dsimp only
      rw [mapAssign_notMem acc k v (by simpa using hdisj (k, v) (List.mem_cons_self _ _))]
      simp only [List.map_cons, List.nodup_cons, Prod.fst] at hnd
      rw [ih (acc ++ [(k, v)]) (fun p hp => hlen p (List.mem_cons_of_mem _ hp)) hnd.2
        (by
          intro p hp
          simp only [List.map_append, List.map_cons, List.map_nil, List.mem_append,
            List.mem_singleton, Prod.fst]
          rintro (hmem | hkk)
          · exact hdisj p (List.mem_cons_of_mem _ hp) hmem
          · exact hnd.1 (hkk ▸ List.mem_map_of_mem Prod.fst hp))]
      simp

/-- C1: codec round-trip.  For every Document with arbitrary embedding length
(including zero), arbitrary content (including empty) and arbitrary metadata
(including empty), deserializeDoc after serializeDoc succeeds and returns the
document unchanged: embedding element for element, content exactly, metadata
binding for binding.  The compressor pair is abstract (gzip lives outside the
repository): the hypotheses state its round-trip property, that compressed
output is nonempty (a gzip stream has a 10-byte header) and that Go slice
lengths fit in their integer types. -/
theorem C1_codec_roundtrip (comp : Bytes → Bytes) (decomp : Bytes → Option Bytes)
    (d : Document)
    (hgzip : decomp (comp d.content) = some d.content)
    (hcne : 0 < (comp d.content).length)
    (hclen : (comp d.content).length < 2 ^ 64)
    (hembv : ∀ x ∈ d.embedding, x < 2 ^ 32)
    (hembl : d.embedding.length < 2 ^ 64)
    (hmdl : d.metadata.length < 2 ^ 63)
    (hkvlen : ∀ p ∈ d.metadata, p.1.length < 2 ^ 64 ∧ p.2.length < 2 ^ 64)
    (hnd : (d.metadata.map Prod.fst).Nodup) :
    deserializeDoc decomp (serializeDoc comp d) = .ok d := by
  obtain ⟨emb, content, md⟩ := d
  simp only at hgzip hcne hclen hembv hembl hmdl hkvlen hnd
  rw [serializeDoc, deserializeDoc]
  simp only [List.append_assoc]
  rw [readUint64_spec emb.length _ hembl]
  dsimp only
  rw [readFloat32s_spec emb _ hembv]
  dsimp only
  by_cases hc : 0 < content.length
  · rw [if_pos hc]
    simp only [List.append_assoc]
    rw [readUint64_spec (comp content).length _ hclen]
    dsimp only
    rw [if_pos hcne]
    rw [bufReadFill_exact (comp content)]
    dsimp only
    rw [hgzip]
    dsimp only
    by_cases hm : 0 < md.length
    · rw [if_pos hm]
      rw [readUint64_spec md.length _ (by
        have h63 : (2 : Nat) ^ 63 < 2 ^ 64 := by norm_num
        omega)]
      dsimp only
      rw [if_pos hmdl]
      have hmd := readMetadata_spec md [] [] hkvlen hnd (by simp)
      rw [List.append_nil] at hmd
      rw [hmd]
      simp
    · rw [if_neg hm]
      have h0 := readUint64_spec 0 [] (by norm_num)
      rw [List.append_nil] at h0
      rw [h0]
      dsimp only
      rw [if_pos (by norm_num)]
      rw [show md = [] from List.length_eq_zero.mp (by omega)]
      rfl
  · rw [if_neg hc]
    rw [readUint64_spec 0 _ (by norm_num)]
    dsimp only
    rw [if_neg (by omega)]
    dsimp only
    rw [show content = [] from List.length_eq_zero.mp (by omega)]
    by_cases hm : 0 < md.length
    · rw [if_pos hm]
      rw [readUint64_spec md.length _ (by
        have h63 : (2 : Nat) ^ 63 < 2 ^ 64 := by norm_num
        omega)]
      dsimp only
      rw [if_pos hmdl]
      have hmd := readMetadata_spec md [] [] hkvlen hnd (by simp)
      rw [List.append_nil] at hmd
      rw [hmd]
      simp
    · rw [if_neg hm]
      have h0 := readUint64_spec 0 [] (by norm_num)
      rw [List.append_nil] at h0
      rw [h0]
      dsimp only
      rw [if_pos (by norm_num)]
      rw [show md = [] from List.length_eq_zero.mp (by omega)]
      rfl

/-- Witness for C1 at a concrete document with a two-entry embedding, a
nonempty content and one metadata binding, with a concrete compressor pair
satisfying the gzip hypotheses. -/
theorem C1_codec_roundtrip_witness :
    deserializeDoc (fun s => match s with | _ :: t => some t | [] => none)
        (serializeDoc (fun s => 31 :: s)
          ⟨[1, 4294967295], [104, 105], [([107], [118])]⟩)
      = .ok ⟨[1, 4294967295], [104, 105], [([107], [118])]⟩ :=
  C1_codec_roundtrip (fun s => 31 :: s) (fun s => match s with | _ :: t => some t | [] => none)
    ⟨[1, 4294967295], [104, 105], [([107], [118])]⟩
    (by rfl) (by decide) (by decide) (by decide) (by decide) (by decide) (by decide) (by decide)

/-- C5 evidence (code bug): deserializeDoc uses `buf.Read` of a bytes.Buffer,
which reports success on a short read whenever the buffer is nonempty.  On an
input that is truncated inside the final metadata value (declared value length
5, only the 2 bytes 66 67 remaining) the decoder returns a Document whose
value field is zero padded, with no error, contradicting the strict-decoding
contract.  The input bytes are: embedding length 0, content length 0,
metadata count 1, key length 1, key byte 65, value length 5, then only two
value bytes. -/
theorem C5_truncated_value_returns_doc :
    deserializeDoc (fun _ => none)
        ([0, 0, 0, 0, 0, 0, 0, 0] ++ [0, 0, 0, 0, 0, 0, 0, 0] ++ [1, 0, 0, 0, 0, 0, 0, 0]
          ++ [1, 0, 0, 0, 0, 0, 0, 0] ++ [65] ++ [5, 0, 0, 0, 0, 0, 0, 0] ++ [66, 67])
      = .ok ⟨[], [], [([65], [66, 67, 0, 0, 0])]⟩ := by rfl

/-- Folding max after seeding with `max a b` is the same as taking `max a` of
the fold seeded with `b`. -/
theorem foldl_max_shift {α : Type} (f : α → ℚ) (l : List α) (a b : ℚ) :
    l.foldl (fun m x => max m (f x)) (max a b)
      = max a (l.foldl (fun m x => max m (f x)) b) := by
  induction l generalizing b with
  | nil => rfl
  | cons x xs ih =>
      simp only [List.foldl_cons]
      rw [max_assoc, ih]

/-- C8 counterexample: with one already-selected result whose similarity to
the candidate is negative (dot = -1), the code clamps the redundancy at the
zero the accumulator starts from, while the claimed formula subtracts the
negative maximum; at lam = 1/2 the code scores 0 where the claim says 1/2. -/
theorem C8_mmr_formula_counterexample :
    mmrScore (1/2) [0] [1] [⟨⟨[-1], [], []⟩, 0⟩] = 0
      ∧ specMmrScore (1/2) [0] [1] [⟨⟨[-1], [], []⟩, 0⟩] = 1/2
      ∧ mmrScore (1/2) [0] [1] [⟨⟨[-1], [], []⟩, 0⟩]
          ≠ specMmrScore (1/2) [0] [1] [⟨⟨[-1], [], []⟩, 0⟩] := by
  refine ⟨by norm_num [mmrScore, dotProduct], by norm_num [specMmrScore, specRedundancy, dotProduct], ?_⟩
  norm_num [mmrScore, specMmrScore, specRedundancy, dotProduct]

/-- C8 amended: the score assigned by the scan equals
lam * dot(q, e) - (1 - lam) * max 0 redundancy, the redundancy maximum being
clamped below at 0 because the accumulating float starts at 0; the claimed
formula without the clamp holds exactly when the maximal similarity with the
already-selected results is nonnegative. -/
theorem C8_mmr_formula_amended (lam : ℚ) (q e : List ℚ) (cand : List QueryResult)
    (h0 : 0 ≤ lam) (h1 : lam ≤ 1) :
    mmrScore lam q e cand
      = lam * dotProduct q e - (1 - lam) * max 0 (specRedundancy e cand)
    ∧ (0 ≤ specRedundancy e cand → mmrScore lam q e cand = specMmrScore lam q e cand) := by
  have key : cand.foldl (fun m c => max m (dotProduct e c.doc.embedding)) 0
      = max 0 (specRedundancy e cand) := by
    match cand with
    | [] => simp [specRedundancy]
    | c :: cs =>
        simp only [specRedundancy, List.foldl_cons]
        exact foldl_max_shift (fun x => dotProduct e x.doc.embedding) cs 0
          (dotProduct e c.doc.embedding)
  constructor
  · rw [mmrScore, key]
  · intro hr
    rw [mmrScore, specMmrScore, key, max_eq_right hr]

/-- Witness for the amended C8 at a concrete scored record. -/
theorem C8_mmr_formula_amended_witness :
    mmrScore (1/2) [3] [2] [⟨⟨[5], [], []⟩, 0⟩]
      = (1/2) * dotProduct [3] [2]
        - (1 - 1/2) * max 0 (specRedundancy [2] [⟨⟨[5], [], []⟩, 0⟩])
    ∧ (0 ≤ specRedundancy [2] [⟨⟨[5], [], []⟩, 0⟩] →
        mmrScore (1/2) [3] [2] [⟨⟨[5], [], []⟩, 0⟩]
          = specMmrScore (1/2) [3] [2] [⟨⟨[5], [], []⟩, 0⟩]) :=
  C8_mmr_formula_amended (1/2) [3] [2] [⟨⟨[5], [], []⟩, 0⟩] (by norm_num) (by norm_num)

/-- Every output of appendToSelection has at most k entries. -/
theorem appendToSelection_length (sel : List QueryResult) (c : QueryResult) (k : Nat) :
    (appendToSelection sel c k).length ≤ k := by
  simp [appendToSelection]

/-- Every output of appendToSelection is sorted by descending score. -/
theorem appendToSelection_sorted (sel : List QueryResult) (c : QueryResult) (k : Nat) :
    (appendToSelection sel c k).Sorted mmrGE :=
  List.Pairwise.sublist (List.take_sublist _ _)
    (List.sorted_insertionSort mmrGE (sel ++ [c]))

/-- C9: MMR selection bound.  Threading any sequence of appendToSelection
calls from the empty list keeps the selection at most k long and sorted by
descending mmr score. -/
theorem C9_selection_bound (k : Nat) (cands : List QueryResult) :
    (cands.foldl (fun sel c => appendToSelection sel c k) []).length ≤ k
      ∧ (cands.foldl (fun sel c => appendToSelection sel c k) []).Sorted mmrGE := by
  have main : ∀ (cs : List QueryResult) (sel : List QueryResult),
      sel.length ≤ k → sel.Sorted mmrGE →
      ((cs.foldl (fun s c => appendToSelection s c k) sel).length ≤ k
        ∧ (cs.foldl (fun s c => appendToSelection s c k) sel).Sorted mmrGE) := by
    intro cs
    induction cs with
    | nil => intro sel h1 h2; exact ⟨h1, h2⟩
    | cons c cs ih =>
        intro sel _ _
        exact ih _ (appendToSelection_length sel c k) (appendToSelection_sorted sel c k)
  exact main cands [] (by simp) (by simp)

/-! ### Write and WriteBatch (C7), rotation (C4) -/

theorem uvarintEncodeAux_length_pos (f x : Nat) : 0 < (uvarintEncodeAux f x).length := by
  cases f with
  | zero => simp [uvarintEncodeAux]
  | succ f => rw [uvarintEncodeAux]; split <;> simp

theorem frame_length_pos (r : Bytes) : 0 < (frame r).length := by
  rw [frame, List.length_append]
  have := uvarintEncodeAux_length_pos 10 r.length
  rw [uvarintEncode]
  omega

/-- C7 counterexample: on a fresh log, Write of the empty byte string
appends a one-byte frame (the varint 0), while WriteBatch of the batch
holding that single empty entry returns before the worker because the
concatenated batch data is empty; the two calls leave different states. -/
theorem C7_write_empty_counterexample :
    Log.Write freshLog freshDisk []
        = .ok ({ freshLog with segments := [⟨1, [0], [⟨0, 1⟩]⟩] }, [(1, [0])])
      ∧ Log.WriteBatch freshLog freshDisk [[]] = .ok (freshLog, freshDisk)
      ∧ Log.Write freshLog freshDisk [] ≠ Log.WriteBatch freshLog freshDisk [[]] := by
  refine ⟨rfl, rfl, ?_⟩
  intro h
  rw [show Log.Write freshLog freshDisk []
      = .ok ({ freshLog with segments := [⟨1, [0], [⟨0, 1⟩]⟩] }, [(1, [0])]) from rfl,
    show Log.WriteBatch freshLog freshDisk [[]] = .ok (freshLog, freshDisk) from rfl] at h
  exact absurd (Except.ok.inj h) (by decide)

/-- C7 amended: Write of `data` and WriteBatch of the one-entry batch
holding `data` agree on every open, non-corrupt log whenever `data` is
nonempty; for empty `data` WriteBatch is a no-op while Write appends an
empty record (see the counterexample). -/
theorem C7_write_writeBatch_amended (l : Log) (d : Disk) (data : Bytes)
    (hc : l.corrupt = false) (hcl : l.closed = false) (hne : data ≠ []) :
    Log.Write l d data = Log.WriteBatch l d [data] := by
  rw [Log.Write, Log.WriteBatch, hc, hcl]
  simp only [Bool.false_eq_true, if_false]
  rw [if_neg (by simpa [List.length_eq_zero] using hne)]

/-- Witness for the amended C7 on a concrete nonempty record. -/
theorem C7_write_writeBatch_amended_witness :
    Log.Write freshLog freshDisk [7] = Log.WriteBatch freshLog freshDisk [[7]] :=
  C7_write_writeBatch_amended freshLog freshDisk [7] rfl rfl (by decide)

/-- C4 counterexample: with segment size 4, the batch [[9,9,9,9],[7]] on a
fresh log appends the 5-byte frame of the first record into segment 1 and
only then cycles: the record whose frame crossed the threshold stays in the
old segment (the claim instead requires it to open the new segment before
placing that record, leaving the old segment without it), and Read finds it
at segment 1, index 0. -/
theorem C4_rotation_counterexample :
    Log.writeBatch freshLog freshDisk [[9, 9, 9, 9], [7]]
        = ({ freshLog with segments :=
              [⟨1, [4, 9, 9, 9, 9], [⟨0, 5⟩]⟩, ⟨2, [1, 7], [⟨0, 2⟩]⟩] },
           [(1, [4, 9, 9, 9, 9]), (2, [1, 7])])
      ∧ Log.Read ({ freshLog with segments :=
              [⟨1, [4, 9, 9, 9, 9], [⟨0, 5⟩]⟩, ⟨2, [1, 7], [⟨0, 2⟩]⟩] })
            [(1, [4, 9, 9, 9, 9]), (2, [1, 7])] 1 0
        = .ok ([9, 9, 9, 9],
            { freshLog with segments :=
              [⟨1, [4, 9, 9, 9, 9], [⟨0, 5⟩]⟩, ⟨2, [1, 7], [⟨0, 2⟩]⟩] }) :=
  ⟨rfl, rfl⟩

/-- C4 amended: when appending a record makes the tail cache reach or pass
the segment size, the log appends that record to the old tail, flushes the
newly written bytes, syncs and closes the old file, opens the segment with
the next index, and the remaining entries continue into the new tail: the
threshold-crossing record itself stays in the old segment. -/
theorem C4_rotation_amended (l : Log) (d : Disk) (init : List Segment) (s0 : Segment)
    (e1 e2 : Bytes)
    (hseg : l.segments = init ++ [s0])
    (h1 : s0.cbuf.length ≤ l.opts.SegmentSize)
    (h2 : l.opts.SegmentSize ≤ s0.cbuf.length + (frame e1).length)
    (h3 : (frame e2).length < l.opts.SegmentSize) :
    l.writeBatch d [e1, e2]
      = ({ l with segments := init
            ++ [⟨s0.index, s0.cbuf ++ frame e1,
                  s0.cpos ++ [⟨s0.cbuf.length, (s0.cbuf ++ frame e1).length⟩]⟩,
                ⟨s0.index + 1, frame e2, [⟨0, (frame e2).length⟩]⟩] },
         diskWrite (diskCreate (diskWrite d s0.index (frame e1)) (s0.index + 1))
           (s0.index + 1) (frame e2)) := by
  have step1 : writeStep l.opts.SegmentSize (init, s0, d, s0.cbuf.length) e1
      = (init ++ [⟨s0.index, s0.cbuf ++ frame e1,
            s0.cpos ++ [⟨s0.cbuf.length, (s0.cbuf ++ frame e1).length⟩]⟩],
         (⟨s0.index + 1, [], []⟩ : Segment),
         diskCreate (diskWrite d s0.index ((s0.cbuf ++ frame e1).drop s0.cbuf.length))
           (s0.index + 1), 0) := by
    rw [writeStep]
    dsimp only
    rw [if_pos (by rw [List.length_append]; omega)]
  have step2 : writeStep l.opts.SegmentSize
      (init ++ [⟨s0.index, s0.cbuf ++ frame e1,
          s0.cpos ++ [⟨s0.cbuf.length, (s0.cbuf ++ frame e1).length⟩]⟩],
        (⟨s0.index + 1, [], []⟩ : Segment),
        diskCreate (diskWrite d s0.index ((s0.cbuf ++ frame e1).drop s0.cbuf.length))
          (s0.index + 1), 0) e2
      = (init ++ [⟨s0.index, s0.cbuf ++ frame e1,
            s0.cpos ++ [⟨s0.cbuf.length, (s0.cbuf ++ frame e1).length⟩]⟩],
         (⟨s0.index + 1, frame e2, [⟨0, (frame e2).length⟩]⟩ : Segment),
         diskCreate (diskWrite d s0.index ((s0.cbuf ++ frame e1).drop s0.cbuf.length))
           (s0.index + 1), 0) := by
    rw [writeStep]
    dsimp only
    rw [if_neg (by simpa using not_le.mpr h3)]
    simp
  rw [Log.writeBatch, hseg]
  rw [List.getLastD_concat, List.dropLast_concat]
  rw [if_neg (not_lt.mpr h1)]
  dsimp only
  rw [List.foldl_cons, step1, List.foldl_cons, step2, List.foldl_nil]
  dsimp only
  rw [if_pos (by simpa using frame_length_pos e2)]
  rw [List.drop_zero, List.drop_left]
  simp [List.append_assoc]

/-- Witness for the amended C4 at the concrete rotation scenario. -/
theorem C4_rotation_amended_witness :
    Log.writeBatch freshLog freshDisk [[9, 9, 9, 9], [7]]
      = ({ freshLog with segments :=
            [⟨1, frame [9, 9, 9, 9], [⟨0, (frame [9, 9, 9, 9]).length⟩]⟩,
             ⟨2, frame [7], [⟨0, (frame [7]).length⟩]⟩] },
         diskWrite (diskCreate (diskWrite freshDisk 1 (frame [9, 9, 9, 9])) 2) 2
           (frame [7])) :=
  C4_rotation_amended freshLog freshDisk [] ⟨1, [], []⟩ [9, 9, 9, 9] [7] rfl
    (by decide) (by decide) (by decide)

/-! ### Corruption handling (C6) and segment resolution (C10) -/

/-- The log state a successful loadSegment returns carries the corrupt flag
of the input log unchanged. -/
theorem loadSegment_corrupt_eq (l : Log) (d : Disk) (idx : Nat) (s : Segment) (lv : Log)
    (h : l.loadSegment d idx = .ok (s, lv)) : lv.corrupt = l.corrupt := by
  rw [Log.loadSegment] at h
  dsimp only at h
  split at h
  · cases Except.ok.inj h
    rfl
  · split at h
    · split at h
      · cases h
      · cases Except.ok.inj h
        rfl
    · cases Except.ok.inj h
      rfl

/-- C6 counterexample: framing corruption discovered at the lazy load of
segment 1 is returned as an error from Read, but the instance is not flagged
corrupt and keeps serving: a Read of the tail segment, Write, WriteBatch and
Sync all succeed afterwards on the same state, and Close succeeds instead of
reporting a corrupt log. -/
theorem C6_not_fatal_counterexample :
    Log.Read corruptDemoLog corruptDemoDisk 1 0
        = .error "Log corrupt: entry size exceeds available data"
      ∧ corruptDemoLog.corrupt = false
      ∧ Log.Read corruptDemoLog corruptDemoDisk 2 0 = .ok ([8], corruptDemoLog)
      ∧ (Log.Write corruptDemoLog corruptDemoDisk [7]).isOk = true
      ∧ (Log.WriteBatch corruptDemoLog corruptDemoDisk [[7]]).isOk = true
      ∧ Log.Sync corruptDemoLog = .ok ()
      ∧ (Log.Close corruptDemoLog).1 = .ok () :=
  ⟨rfl, rfl, rfl, rfl, rfl, rfl, rfl⟩

/-- C6 amended: corruption discovered while loading a segment surfaces only
as the error value of that call; the corrupt flag is never set by any
modelled operation (the source checks the flag everywhere but contains no
assignment to it), so the instance keeps serving the other segments and all
writes.  The three parts cover the write worker, Close, and every successful
Read. -/
theorem C6_corrupt_flag_amended :
    (∀ (l : Log) (d : Disk) (b : List Bytes), ((l.writeBatch d b).1).corrupt = l.corrupt)
      ∧ (∀ l : Log, ((Log.Close l).2).corrupt = l.corrupt)
      ∧ (∀ (l : Log) (d : Disk) (sg i : Nat) (x : Bytes) (lv : Log),
          l.Read d sg i = .ok (x, lv) → lv.corrupt = l.corrupt) := by
  refine ⟨fun l d b => rfl, ?_, ?_⟩
  · intro l
    rw [Log.Close]
    split
    · rfl
    · rfl
  · intro l d sg i x lv h
    rw [Log.Read] at h
    split at h
    · cases h
    split at h
    · cases h
    split at h
    · cases h
    rcases hload : l.loadSegment d sg with e | ⟨sseg, lseg⟩
    · rw [hload] at h
      cases h
    · rw [hload] at h
      dsimp only at h
      split at h
      · cases h
      split at h
      · cases h
      split at h
      · cases h
      have hlv : lseg = lv := congrArg Prod.snd (Except.ok.inj h)
      rw [← hlv]
      exact loadSegment_corrupt_eq l d sg sseg lseg hload
  
/-- Witness for the amended C6 on the corrupt-segment demonstration state,
with the Read hypothesis discharged at the concrete successful read of the
tail segment. -/
theorem C6_corrupt_flag_amended_witness :
    ((corruptDemoLog.writeBatch corruptDemoDisk [[7]]).1).corrupt = corruptDemoLog.corrupt
      ∧ ((Log.Close corruptDemoLog).2).corrupt = corruptDemoLog.corrupt
      ∧ corruptDemoLog.corrupt = corruptDemoLog.corrupt :=
  ⟨C6_corrupt_flag_amended.1 corruptDemoLog corruptDemoDisk [[7]],
   C6_corrupt_flag_amended.2.1 corruptDemoLog,
   C6_corrupt_flag_amended.2.2 corruptDemoLog corruptDemoDisk 2 0 [8] corruptDemoLog rfl⟩

/-- C10: a segment number strictly greater than Segments is not rejected:
loadSegment resolves any index at or past the tail index to the tail
segment, so Read returns exactly what reading the tail segment returns;
only segment number 0 draws the not-found error. -/
theorem C10_read_past_tail (l : Log) (d : Disk) (s i : Nat)
    (hne : l.segments ≠ [])
    (hidx : ∀ (k : Nat) (hk : k < l.segments.length), (l.segments[k]).index = k + 1)
    (hc : l.corrupt = false) (hcl : l.closed = false)
    (hs : l.Segments < s) :
    l.Read d s i = l.Read d l.Segments i
      ∧ l.Read d 0 i = .error "Segment not found while reading from log" := by
  have hlast : (l.segments.getLastD default).index = l.Segments := by
    rcases List.eq_nil_or_concat l.segments with h1 | ⟨L, b, h1⟩
    · exact absurd h1 hne
    · rw [List.concat_eq_append] at h1
      have hk : L.length < l.segments.length := by rw [h1]; simp
      have := hidx L.length hk
      rw [h1, List.getLastD_concat]
      rw [show l.segments[L.length] = b by
        simp only [h1]
        exact List.getElem_concat_length L b _ rfl _] at this
      rw [this, Log.Segments, h1]
      simp
  have hSeg1 : 1 ≤ l.Segments := by
    rw [Log.Segments]
    exact List.length_pos.mpr hne
  constructor
  · rw [Log.Read, Log.Read, hc, hcl]
    simp only [Bool.false_eq_true, if_false]
    rw [if_neg (by omega), if_neg (by omega)]
    rw [Log.loadSegment, Log.loadSegment]
    dsimp only
    rw [if_pos (by rw [hlast]; omega), if_pos (by rw [hlast])]
  · rw [Log.Read, hc, hcl]
    simp only [Bool.false_eq_true, if_false]
    simp

/-- Witness for C10: on the two-segment demonstration log, reading segment 5
equals reading the tail segment 2, and segment 0 is rejected. -/
theorem C10_read_past_tail_witness :
    Log.Read corruptDemoLog corruptDemoDisk 5 0
        = Log.Read corruptDemoLog corruptDemoDisk corruptDemoLog.Segments 0
      ∧ Log.Read corruptDemoLog corruptDemoDisk 0 0
        = .error "Segment not found while reading from log" :=
  C10_read_past_tail corruptDemoLog corruptDemoDisk 5 0 (by decide) (by decide) rfl rfl
    (by decide)

/-! ### Varint round trip (C2, C3) -/

/-- Decoding an encoded value with loop state `i`, shift `7 * i` and an
accumulator holding fewer than `2 ^ (7 * i)` already-decoded bits returns
the combined value and the consumed count.  The capacity hypothesis mirrors
the 64-bit overflow check of binary.Uvarint. -/
theorem uvarintDecodeAux_encodeAux : ∀ (f x i s acc : Nat) (rest : Bytes),
    1 ≤ f → i + f = 10 → x < 2 ^ (7 * f - 6) → s = 7 * i → acc < 2 ^ s →
    uvarintDecodeAux (uvarintEncodeAux f x ++ rest) i s acc
      = some (acc + x * 2 ^ s, i + (uvarintEncodeAux f x).length) := by
  intro f
  induction f with
  | zero => intro x i s acc rest h1; omega
  | succ f ih =>
      intro x i s acc rest h1 h10 hx hs hacc
      have hi9 : i ≤ 9 := by omega
      rw [uvarintEncodeAux]
      by_cases hx128 : x < 128
      · rw [if_pos hx128]
        simp only [List.cons_append, List.nil_append]
        rw [uvarintDecodeAux]
        rw [if_neg (by omega)]
        rw [if_pos hx128]
        rw [if_neg (by
          rintro ⟨hi, hb⟩
          have hf : f = 0 := by omega
          rw [hf] at hx
          norm_num at hx
          omega)]
        rw [Nat.mod_eq_of_lt (by
          have hpow : 2 ^ s * 2 ^ (7 * (f + 1) - 6) ≤ 2 ^ 64 := by
            rw [← pow_add]
            exact Nat.pow_le_pow_right (by norm_num) (by omega)
          have hxs : (x + 1) * 2 ^ s ≤ 2 ^ (7 * (f + 1) - 6) * 2 ^ s := by
            exact Nat.mul_le_mul_right _ (by omega)
          nlinarith [pow_pos (show 0 < 2 by norm_num) s])]
        simp
      · rw [if_neg hx128]
        simp only [List.cons_append]
        rw [uvarintDecodeAux]
        rw [if_neg (by omega)]
        rw [if_neg (by omega)]
        have hf1 : 1 ≤ f := by
          by_contra hf0
          have : f = 0 := by omega
          rw [this] at hx
          norm_num at hx
          omega
        have hmod : (x % 128 + 128) % 128 = x % 128 := by omega
        have hsmall : acc + x % 128 * 2 ^ s < 2 ^ (s + 7) := by
          have h127 : x % 128 ≤ 127 := by omega
          have : x % 128 * 2 ^ s ≤ 127 * 2 ^ s := Nat.mul_le_mul_right _ h127
          have hpow : 2 ^ (s + 7) = 128 * 2 ^ s := by rw [pow_add]; ring
          omega
        have hlt64 : acc + x % 128 * 2 ^ s < 2 ^ 64 := by
          have hle : (2 : Nat) ^ (s + 7) ≤ 2 ^ 64 := by
            exact Nat.pow_le_pow_right (by norm_num) (by omega)
          omega
        rw [hmod, Nat.mod_eq_of_lt hlt64]
        rw [ih (x / 128) (i + 1) (s + 7) (acc + x % 128 * 2 ^ s) rest hf1 (by omega)
          (by
            have hx2 : x < 2 ^ (7 * (f + 1) - 6) := hx
            have hd : x / 128 < 2 ^ (7 * f - 6) := by
              rw [Nat.div_lt_iff_lt_mul (by norm_num)]
              calc x < 2 ^ (7 * (f + 1) - 6) := hx2
                _ = 2 ^ (7 * f - 6) * 128 := by
                    rw [show (128 : Nat) = 2 ^ 7 by norm_num, ← pow_add]
                    congr 1
                    omega
            exact hd)
          (by omega) hsmall]
        have hval : acc + x % 128 * 2 ^ s + x / 128 * 2 ^ (s + 7) = acc + x * 2 ^ s := by
          have hx9 : x % 128 + 128 * (x / 128) = x := Nat.mod_add_div x 128
          calc acc + x % 128 * 2 ^ s + x / 128 * 2 ^ (s + 7)
              = acc + (x % 128 + 128 * (x / 128)) * 2 ^ s := by rw [pow_add]; ring
            _ = acc + x * 2 ^ s := by rw [hx9]
        have hlen : i + 1 + (uvarintEncodeAux f (x / 128)).length
            = i + ((x % 128 + 128) :: uvarintEncodeAux f (x / 128)).length := by
          simp only [List.length_cons]
          omega
        rw [hval, hlen]

/-- Round trip of the varint codec for any uint64 value, with arbitrary
following bytes: binary.Uvarint reads back the value PutUvarint wrote and
consumes exactly the encoded bytes. -/
theorem uvarintDecode_encode (x : Nat) (rest : Bytes) (h : x < 2 ^ 64) :
    uvarintDecode (uvarintEncode x ++ rest) = some (x, (uvarintEncode x).length) := by
  have := uvarintDecodeAux_encodeAux 10 x 0 0 0 rest (by norm_num) (by norm_num)
    (by norm_num at h ⊢; exact h) (by norm_num) (by norm_num)
  simpa [uvarintDecode, uvarintEncode] using this

/-- The consumed byte count of a successful decode is positive and bounded
by the data length (relative to the starting position `i`). -/
theorem uvarintDecodeAux_bounds : ∀ (data : Bytes) (i s acc v c : Nat),
    uvarintDecodeAux data i s acc = some (v, c) → i < c ∧ c ≤ i + data.length := by
  intro data
  induction data with
  | nil => intro i s acc v c h; cases h
  | cons b rest ih =>
      intro i s acc v c h
      rw [uvarintDecodeAux] at h
      split at h
      · cases h
      · split at h
        · split at h
          · cases h
          · cases Option.some.inj h
            simp
        · have := ih (i + 1) (s + 7) _ v c h
          simp only [List.length_cons]
          omega

theorem uvarintDecode_bounds (data : Bytes) (v c : Nat)
    (h : uvarintDecode data = some (v, c)) : 1 ≤ c ∧ c ≤ data.length := by
  have := uvarintDecodeAux_bounds data 0 0 0 v c h
  omega

/-- A run of bytes that all carry the continuation bit never completes a
varint: the decoder either runs out of bytes or exceeds ten of them. -/
theorem uvarintDecodeAux_all_cont : ∀ (l : Bytes) (i s acc : Nat),
    (∀ b ∈ l, 128 ≤ b) → uvarintDecodeAux l i s acc = none := by
  intro l
  induction l with
  | nil => intro i s acc hctn; rfl
  | cons b rest ih =>
      intro i s acc hctn
      rw [uvarintDecodeAux]
      split
      · rfl
      · rw [if_neg (by
          have := hctn b (List.mem_cons_self _ _)
          omega)]
        exact ih _ _ _ (fun y hy => hctn y (List.mem_cons_of_mem _ hy))

/-- All bytes of an encoded varint except the last carry the continuation
bit. -/
theorem uvarintEncodeAux_dropLast_cont : ∀ (f x : Nat),
    ∀ b ∈ (uvarintEncodeAux f x).dropLast, 128 ≤ b := by
  intro f
  induction f with
  | zero => intro x b hb; simp [uvarintEncodeAux] at hb
  | succ f ih =>
      intro x b hb
      rw [uvarintEncodeAux] at hb
      split at hb
      · simp at hb
      · obtain ⟨y, t, hyt⟩ : ∃ y t, uvarintEncodeAux f (x / 128) = y :: t := by
          rcases henc : uvarintEncodeAux f (x / 128) with _ | ⟨y, t⟩
          · have := uvarintEncodeAux_length_pos f (x / 128)
            rw [henc] at this
            simp at this
          · exact ⟨y, t, rfl⟩
        rw [hyt, List.dropLast_cons₂, List.mem_cons] at hb
        rcases hb with hb | hb
        · omega
        · exact ih (x / 128) b (hyt ▸ hb)

/-! ### Frame parsing (C2, C3) -/

theorem frame_length (r : Bytes) :
    (frame r).length = (uvarintEncode r.length).length + r.length := by
  rw [frame, List.length_append]

theorem framesOf_nil : framesOf [] = [] := rfl

theorem framesOf_cons (r : Bytes) (rs : List Bytes) :
    framesOf (r :: rs) = frame r ++ framesOf rs := rfl

theorem framesOf_append (a b : List Bytes) :
    framesOf (a ++ b) = framesOf a ++ framesOf b := by
  rw [framesOf, framesOf, framesOf, List.map_append, List.flatten_append]

theorem frame_ne_nil (r : Bytes) : frame r ≠ [] := by
  have := frame_length_pos r
  intro hc
  rw [hc] at this
  simp at this

/-- The first frame of a buffer parses to its own span length. -/
theorem loadNextBinaryEntry_frame (r rest : Bytes) (h : r.length < 2 ^ 64) :
    loadNextBinaryEntry (frame r ++ rest) = .ok (frame r).length := by
  rw [loadNextBinaryEntry, frame, List.append_assoc, uvarintDecode_encode r.length _ h]
  dsimp only
  rw [if_neg (by
    simp only [List.length_append]
    omega)]
  simp [List.length_append]

theorem loadNextBinaryEntry_consume (data : Bytes) (n : Nat)
    (h : loadNextBinaryEntry data = .ok n) : 1 ≤ n ∧ n ≤ data.length := by
  rcases hdec : uvarintDecode data with _ | ⟨size, c⟩
  · rw [loadNextBinaryEntry, hdec] at h
    cases h
  · rw [loadNextBinaryEntry, hdec] at h
    dsimp only at h
    split at h
    · cases h
    · cases Except.ok.inj h
      have hb := uvarintDecode_bounds data size c hdec
      rename_i hsize
      omega

theorem parseFramesAux_nil (f pos : Nat) : parseFramesAux f [] pos = .ok [] := by
  cases f <;> rfl

theorem parseFramesAux_step (f : Nat) (data : Bytes) (pos : Nat) (hne : data ≠ []) :
    parseFramesAux (f + 1) data pos
      = match loadNextBinaryEntry data with
        | .error e => .error e
        | .ok n =>
            match parseFramesAux f (data.drop n) (pos + n) with
            | .error e => .error e
            | .ok spans => .ok (⟨pos, pos + n⟩ :: spans) := by
  rcases data with _ | ⟨b, rest⟩
  · exact absurd rfl hne
  · rfl

/-- A clean run of frames parses to its span list under any sufficient
fuel. -/
theorem parseFramesAux_clean : ∀ (rs : List Bytes) (pos fuel : Nat),
    (∀ r ∈ rs, r.length < 2 ^ 64) → (framesOf rs).length ≤ fuel →
    parseFramesAux fuel (framesOf rs) pos = .ok (spansOf rs pos) := by
  intro rs
  induction rs with
  | nil =>
      intro pos fuel h1 h2
      rw [framesOf_nil, parseFramesAux_nil]
      rfl
  | cons r rs ih =>
      intro pos fuel h1 h2
      have hne : framesOf (r :: rs) ≠ [] := by
        rw [framesOf_cons]
        intro hc
        exact frame_ne_nil r (List.append_eq_nil.mp hc).1
      rcases fuel with _ | f
      · exfalso
        rw [framesOf_cons, List.length_append] at h2
        have := frame_length_pos r
        omega
      · rw [framesOf_cons]
        rw [parseFramesAux_step f _ pos (by rw [← framesOf_cons]; exact hne)]
        rw [loadNextBinaryEntry_frame r _ (h1 r (List.mem_cons_self _ _))]
        dsimp only
        rw [List.drop_left]
        rw [ih (pos + (frame r).length) f (fun q hq => h1 q (List.mem_cons_of_mem _ hq))
          (by
            rw [framesOf_cons, List.length_append] at h2
            have := frame_length_pos r
            omega)]
        rfl

/-- The eager parse at open time and the lazy parse at read time reconstruct
exactly the spans of the records a clean segment holds. -/
theorem parseFrames_clean (rs : List Bytes) (h : ∀ r ∈ rs, r.length < 2 ^ 64) :
    parseFrames (framesOf rs) = .ok (spansOf rs 0) :=
  parseFramesAux_clean rs 0 _ h le_rfl

theorem take_frame_in_varint (r : Bytes) (t : Nat) (ht : t < (uvarintEncode r.length).length) :
    (frame r).take t = (uvarintEncode r.length).take t := by
  rw [frame, List.take_append_eq_append_take]
  rw [show t - (uvarintEncode r.length).length = 0 by omega]
  simp

theorem take_frame_past_varint (r : Bytes) (t : Nat)
    (ht : (uvarintEncode r.length).length ≤ t) :
    (frame r).take t
      = uvarintEncode r.length ++ r.take (t - (uvarintEncode r.length).length) := by
  rw [frame, List.take_append_eq_append_take, List.take_of_length_le ht]

/-- A strict, nonempty prefix of a single frame draws one of the two
corruption errors from loadNextBinaryEntry: a prefix inside the varint is a
run of continuation bytes, and a prefix past the varint leaves fewer payload
bytes than the decoded size. -/
theorem loadNext_truncated (r : Bytes) (t : Nat) (h64 : r.length < 2 ^ 64)
    (h0 : 0 < t) (ht : t < (frame r).length) :
    ∃ e, loadNextBinaryEntry ((frame r).take t) = .error e
      ∧ (e = "Log corrupt: unable to read entry size"
         ∨ e = "Log corrupt: entry size exceeds available data") := by
  by_cases hv : t < (uvarintEncode r.length).length
  · have hnone : uvarintDecode ((uvarintEncode r.length).take t) = none := by
      apply uvarintDecodeAux_all_cont
      intro b hb
      have hsub : (uvarintEncode r.length).take t
          = ((uvarintEncode r.length).dropLast).take t := by
        rw [List.dropLast_eq_take, List.take_take]
        congr 1
        omega
      exact uvarintEncodeAux_dropLast_cont 10 r.length b
        (List.take_subset _ _ (hsub ▸ hb))
    refine ⟨_, ?_, Or.inl rfl⟩
    rw [take_frame_in_varint r t hv, loadNextBinaryEntry, hnone]
  · refine ⟨_, ?_, Or.inr rfl⟩
    rw [take_frame_past_varint r t (le_of_not_lt hv), loadNextBinaryEntry,
      uvarintDecode_encode r.length _ h64]
    dsimp only
    rw [if_pos (by
      simp only [List.length_append, List.length_take]
      rw [frame_length] at ht
      omega)]

/-- A clean run of frames followed by a strict, nonempty prefix of one more
frame fails to parse, with one of the two corruption errors. -/
theorem parseFramesAux_truncated : ∀ (rs : List Bytes) (r : Bytes) (t pos fuel : Nat),
    (∀ q ∈ rs, q.length < 2 ^ 64) → r.length < 2 ^ 64 → 0 < t → t < (frame r).length →
    (framesOf rs).length + t ≤ fuel →
    ∃ e, parseFramesAux fuel (framesOf rs ++ (frame r).take t) pos = .error e
      ∧ (e = "Log corrupt: unable to read entry size"
         ∨ e = "Log corrupt: entry size exceeds available data") := by
  intro rs
  induction rs with
  | nil =>
      intro r t pos fuel h64s h64 h0 ht hfuel
      rw [framesOf_nil, List.nil_append]
      rcases fuel with _ | f
      · exfalso
        rw [framesOf_nil] at hfuel
        simp at hfuel
        omega
      · have hne : (frame r).take t ≠ [] := by
          have hl : ((frame r).take t).length = t := by
            rw [List.length_take]
            omega
          intro hc
          rw [hc] at hl
          simp at hl
          omega
        rw [parseFramesAux_step f _ pos hne]
        obtain ⟨e, he, hor⟩ := loadNext_truncated r t h64 h0 ht
        rw [he]
        exact ⟨e, rfl, hor⟩
  | cons q rs ih =>
      intro r t pos fuel h64s h64 h0 ht hfuel
      rw [framesOf_cons, List.append_assoc]
      have hq64 := h64s q (List.mem_cons_self _ _)
      rcases fuel with _ | f
      · exfalso
        have := frame_length_pos q
        rw [framesOf_cons, List.length_append] at hfuel
        omega
      · have hne : frame q ++ (framesOf rs ++ (frame r).take t) ≠ [] := by
          intro hc
          exact frame_ne_nil q (List.append_eq_nil.mp hc).1
        rw [parseFramesAux_step f _ pos hne, loadNextBinaryEntry_frame q _ hq64]
        dsimp only
        rw [List.drop_left]
        obtain ⟨e, he, hor⟩ := ih r t (pos + (frame q).length) f
          (fun p hp => h64s p (List.mem_cons_of_mem _ hp)) h64 h0 ht
          (by
            rw [framesOf_cons, List.length_append] at hfuel
            have := frame_length_pos q
            omega)
        rw [he]
        exact ⟨e, rfl, hor⟩

theorem parseFrames_truncated (rs : List Bytes) (r : Bytes) (t : Nat)
    (h64s : ∀ q ∈ rs, q.length < 2 ^ 64) (h64 : r.length < 2 ^ 64)
    (h0 : 0 < t) (ht : t < (frame r).length) :
    ∃ e, parseFrames (framesOf rs ++ (frame r).take t) = .error e
      ∧ (e = "Log corrupt: unable to read entry size"
         ∨ e = "Log corrupt: entry size exceeds available data") := by
  apply parseFramesAux_truncated rs r t 0 _ h64s h64 h0 ht
  rw [List.length_append, List.length_take]
  omega

/-! ### Corruption detection at Open (C3) -/

/-- Reading the file of the last directory entry, whose name no earlier
entry shares (file names are unique in a directory). -/
theorem diskRead_append_last (dinit : Disk) (m : Nat) (bytes : Bytes)
    (h : ∀ p ∈ dinit, p.1 ≠ m) :
    diskRead (dinit ++ [(m, bytes)]) m = some bytes := by
  induction dinit with
  | nil => simp [diskRead]
  | cons p rest ih =>
      obtain ⟨i, b⟩ := p
      rw [List.cons_append, diskRead]
      rw [if_neg (by simpa using h (i, b) (List.mem_cons_self _ _))]
      exact ih (fun q hq => h q (List.mem_cons_of_mem _ hq))

/-- C3: corruption detection at Open.  For every directory whose tail
(last, highest-indexed) segment file is truncated strictly inside a record
frame - leaving an unreadable varint or a payload shorter than its declared
length - Open fails with one of the two framing corruption errors rather
than silently truncating: load eagerly re-parses the tail segment file and
propagates the parse failure. -/
theorem C3_open_truncated_fails (dinit : Disk) (m : Nat) (rs : List Bytes) (r : Bytes)
    (t : Nat) (opts : Option Options)
    (hm : m ≠ 0)
    (hnames : ∀ p ∈ dinit, p.1 ≠ m)
    (h64s : ∀ q ∈ rs, q.length < 2 ^ 64) (h64 : r.length < 2 ^ 64)
    (h0 : 0 < t) (ht : t < (frame r).length) :
    ∃ e, Open (dinit ++ [(m, framesOf rs ++ (frame r).take t)]) opts = .error e
      ∧ (e = "Log corrupt: unable to read entry size"
         ∨ e = "Log corrupt: entry size exceeds available data") := by
  obtain ⟨e, he, hor⟩ := parseFrames_truncated rs r t h64s h64 h0 ht
  refine ⟨e, ?_, hor⟩
  rw [Open, loadLog]
  have hfm : (dinit ++ [(m, framesOf rs ++ (frame r).take t)]).filterMap
      (fun f => if f.1 = 0 then none else some (⟨f.1, [], []⟩ : Segment))
      = dinit.filterMap (fun f => if f.1 = 0 then none else some (⟨f.1, [], []⟩ : Segment))
        ++ [⟨m, [], []⟩] := by
    rw [List.filterMap_append]
    congr 1
    simp [hm]
  rw [hfm]
  rw [if_neg (by simp)]
  rw [List.getLastD_concat]
  rw [Log.loadSegmentEntries]
  dsimp only
  rw [diskRead_append_last dinit m _ hnames]
  dsimp only
  rw [he]

/-- Witness for C3: a directory holding the single segment file 1 whose
content is the first byte of the frame of the record [7, 8] (the declared
size 2, no payload); Open reports the corruption. -/
theorem C3_open_truncated_fails_witness :
    ∃ e, Open [(1, (frame [7, 8]).take 1)] none = .error e
      ∧ (e = "Log corrupt: unable to read entry size"
         ∨ e = "Log corrupt: entry size exceeds available data") :=
  C3_open_truncated_fails [] 1 [] [7, 8] 1 none (by decide) (by simp) (by simp)
    (by decide) (by decide) (by decide)

/-! ### Partition view lemmas (C2) -/

theorem buildSegs_append (i : Nat) (a b : List (List Bytes)) :
    buildSegs i (a ++ b) = buildSegs i a ++ buildSegs (i + a.length) b := by
  induction a generalizing i with
  | nil => simp [buildSegs]
  | cons rs rest ih =>
      simp only [List.cons_append, buildSegs, List.length_cons, List.append_eq]
      rw [ih, show i + 1 + rest.length = i + (rest.length + 1) by omega]

theorem buildDisk_append (i : Nat) (a b : List (List Bytes)) :
    buildDisk i (a ++ b) = buildDisk i a ++ buildDisk (i + a.length) b := by
  induction a generalizing i with
  | nil => simp [buildDisk]
  | cons rs rest ih =>
      simp only [List.cons_append, buildDisk, List.length_cons, List.append_eq]
      rw [ih, show i + 1 + rest.length = i + (rest.length + 1) by omega]

theorem emptySegs_append (i : Nat) (a b : List (List Bytes)) :
    emptySegs i (a ++ b) = emptySegs i a ++ emptySegs (i + a.length) b := by
  induction a generalizing i with
  | nil => simp [emptySegs]
  | cons rs rest ih =>
      simp only [List.cons_append, emptySegs, List.length_cons, List.append_eq]
      rw [ih, show i + 1 + rest.length = i + (rest.length + 1) by omega]

theorem buildSegs_length (i : Nat) (rss : List (List Bytes)) :
    (buildSegs i rss).length = rss.length := by
  induction rss generalizing i with
  | nil => rfl
  | cons rs rest ih => simp [buildSegs, ih]

theorem buildDisk_length (i : Nat) (rss : List (List Bytes)) :
    (buildDisk i rss).length = rss.length := by
  induction rss generalizing i with
  | nil => rfl
  | cons rs rest ih => simp [buildDisk, ih]

theorem framesOf_concat (rs : List Bytes) (r : Bytes) :
    framesOf (rs ++ [r]) = framesOf rs ++ frame r := by
  rw [framesOf_append]
  simp [framesOf]

theorem spansOf_append_general (a : List Bytes) (r : Bytes) : ∀ (p : Nat),
    spansOf (a ++ [r]) p
      = spansOf a p ++ [⟨p + (framesOf a).length, p + (framesOf a).length + (frame r).length⟩] := by
  induction a with
  | nil => intro p; simp [spansOf, framesOf]
  | cons q rest ih =>
      intro p
      simp only [List.cons_append, spansOf, List.append_eq]
      rw [ih, framesOf_cons, List.length_append]
      simp [Nat.add_assoc]

theorem spansOf_concat0 (rs : List Bytes) (r : Bytes) :
    spansOf (rs ++ [r]) 0
      = spansOf rs 0 ++ [⟨(framesOf rs).length, (framesOf rs).length + (frame r).length⟩] := by
  rw [spansOf_append_general]
  simp

/-- Creating a file whose name no existing entry carries appends it. -/
theorem diskCreate_fresh (d : Disk) (idx : Nat) (h : ∀ p ∈ d, p.1 ≠ idx) :
    diskCreate d idx = d ++ [(idx, [])] := by
  induction d with
  | nil => rfl
  | cons p rest ih =>
      obtain ⟨i, b⟩ := p
      rw [diskCreate, if_neg (by simpa using h (i, b) (List.mem_cons_self _ _))]
      rw [ih (fun q hq => h q (List.mem_cons_of_mem _ hq))]
      simp

/-- Appending bytes to the file of the last directory entry. -/
theorem diskWrite_append_last (d : Disk) (idx : Nat) (b bytes : Bytes)
    (h : ∀ p ∈ d, p.1 ≠ idx) :
    diskWrite (d ++ [(idx, b)]) idx bytes = d ++ [(idx, b ++ bytes)] := by
  induction d with
  | nil => simp [diskWrite]
  | cons p rest ih =>
      obtain ⟨i, c⟩ := p
      rw [List.cons_append, diskWrite,
        if_neg (by simpa using h (i, c) (List.mem_cons_self _ _))]
      rw [ih (fun q hq => h q (List.mem_cons_of_mem _ hq))]
      simp

theorem buildDisk_indices (i : Nat) (rss : List (List Bytes)) :
    ∀ p ∈ buildDisk i rss, i ≤ p.1 ∧ p.1 < i + rss.length := by
  induction rss generalizing i with
  | nil => intro p hp; cases hp
  | cons rs rest ih =>
      intro p hp
      rw [buildDisk, List.mem_cons] at hp
      rcases hp with hp | hp
      · rw [hp]
        simp
      · have := ih (i + 1) p hp
        simp only [List.length_cons]
        omega

/-- One writeStep whose appended frame reaches the segment size: the record
lands in the old tail, the new bytes are flushed, and an empty tail with
the next index is created. -/
theorem writeStep_cycle (S : Nat) (done : List Segment) (m : Nat) (cbuf : Bytes)
    (cpos : List bpos) (d : Disk) (mark : Nat) (r : Bytes)
    (h : S ≤ (cbuf ++ frame r).length) :
    writeStep S (done, ⟨m, cbuf, cpos⟩, d, mark) r
      = (done ++ [⟨m, cbuf ++ frame r, cpos ++ [⟨cbuf.length, (cbuf ++ frame r).length⟩]⟩],
         (⟨m + 1, [], []⟩ : Segment),
         diskCreate (diskWrite d m ((cbuf ++ frame r).drop mark)) (m + 1), 0) := by
  rw [writeStep]
  dsimp only
  rw [if_pos h]

/-- One writeStep that stays below the segment size: the record is appended
to the tail cache and nothing else changes. -/
theorem writeStep_stay (S : Nat) (done : List Segment) (m : Nat) (cbuf : Bytes)
    (cpos : List bpos) (d : Disk) (mark : Nat) (r : Bytes)
    (h : ¬ S ≤ (cbuf ++ frame r).length) :
    writeStep S (done, ⟨m, cbuf, cpos⟩, d, mark) r
      = (done, ⟨m, cbuf ++ frame r, cpos ++ [⟨cbuf.length, (cbuf ++ frame r).length⟩]⟩,
         d, mark) := by
  rw [writeStep]
  dsimp only
  rw [if_neg h]

/-- writeBatch on a one-entry batch performs exactly the pushRecord update
of the record partition, on the segment list and on the directory alike. -/
theorem writeBatch_push (opts : Options) (rss : List (List Bytes)) (r : Bytes)
    (hne : rss ≠ []) :
    (logOf opts rss).writeBatch (buildDisk 1 rss) [r]
      = (logOf opts (pushRecord opts.SegmentSize rss r),
         buildDisk 1 (pushRecord opts.SegmentSize rss r)) := by
  obtain ⟨init, rs0, rfl⟩ : ∃ init rs0, rss = init ++ [rs0] := by
    rcases List.eq_nil_or_concat rss with h | ⟨a, b, h⟩
    · exact absurd h hne
    · exact ⟨a, b, by simpa [List.concat_eq_append] using h⟩
  have hsegs : (logOf opts (init ++ [rs0])).segments
      = buildSegs 1 init ++ [⟨1 + init.length, framesOf rs0, spansOf rs0 0⟩] := by
    show buildSegs 1 (init ++ [rs0]) = _
    rw [buildSegs_append]
    rfl
  have hdisk : buildDisk 1 (init ++ [rs0])
      = buildDisk 1 init ++ [(1 + init.length, framesOf rs0)] := by
    rw [buildDisk_append]
    rfl
  have hfresh1 : ∀ p ∈ buildDisk 1 (init ++ [rs0]), p.1 ≠ 1 + init.length + 1 := by
    intro p hp
    have := buildDisk_indices 1 (init ++ [rs0]) p hp
    simp only [List.length_append, List.length_cons, List.length_nil] at this
    omega
  have hfreshw : ∀ p ∈ buildDisk 1 init, p.1 ≠ 1 + init.length := by
    intro p hp
    have := buildDisk_indices 1 init p hp
    omega
  have hpushLast : (init ++ [rs0]).getLastD ([] : List Bytes) = rs0 :=
    List.getLastD_concat _ _ _
  have hpushInit : (init ++ [rs0]).dropLast = init := List.dropLast_concat
  have hlogof : ∀ (xs : List (List Bytes)),
      ({ logOf opts (init ++ [rs0]) with segments := buildSegs 1 xs } : Log)
        = logOf opts xs := by
    intro xs
    rfl
  rw [Log.writeBatch, hsegs, List.getLastD_concat, List.dropLast_concat,
    show (logOf opts (init ++ [rs0])).opts = opts from rfl]
  try dsimp only
  rw [pushRecord]
  try dsimp only
  rw [hpushLast, hpushInit]
  by_cases hpre : opts.SegmentSize < (framesOf rs0).length
  · rw [if_pos hpre, if_pos hpre]
    dsimp only [List.foldl_cons, List.foldl_nil]
    by_cases hcyc : opts.SegmentSize ≤ (framesOf ([] : List Bytes) ++ frame r).length
    · rw [if_pos hcyc]
      rw [writeStep_cycle _ _ _ _ _ _ _ _ (by simpa [framesOf] using hcyc)]
      dsimp only
      rw [if_neg (by simp)]
      rw [diskCreate_fresh (buildDisk 1 (init ++ [rs0])) (1 + init.length + 1) hfresh1]
      rw [diskWrite_append_last _ _ _ _ hfresh1]
      rw [diskCreate_fresh _ _ (by
        intro p hp
        simp only [List.mem_append, List.mem_singleton] at hp
        rcases hp with hp | hp
        · have := buildDisk_indices 1 (init ++ [rs0]) p hp
          simp only [List.length_append, List.length_cons, List.length_nil] at this
          omega
        · rw [hp]
          simp)]
      rw [show init ++ [rs0] ++ [([] : List Bytes) ++ [r], []]
          = (init ++ [rs0]) ++ ([([] : List Bytes) ++ [r]] ++ [[]]) by simp]
      simp [logOf, buildSegs_append, buildDisk_append, hdisk, buildSegs, buildDisk,
        framesOf, spansOf, List.length_append, Nat.add_assoc]
    · rw [if_neg hcyc]
      rw [writeStep_stay _ _ _ _ _ _ _ _ (by simpa [framesOf] using hcyc)]
      dsimp only
      rw [if_pos (by
        have := frame_length_pos r
        simp only [List.nil_append, List.length_nil, Nat.sub_zero]
        exact this)]
      rw [diskCreate_fresh (buildDisk 1 (init ++ [rs0])) (1 + init.length + 1) hfresh1]
      rw [diskWrite_append_last _ _ _ _ hfresh1]
      rw [show init ++ [rs0] ++ [([] : List Bytes) ++ [r]]
          = (init ++ [rs0]) ++ [([] : List Bytes) ++ [r]] by simp]
      simp [logOf, buildSegs_append, buildDisk_append, hdisk, buildSegs, buildDisk,
        framesOf, spansOf, List.length_append, Nat.add_assoc]
  · rw [if_neg hpre, if_neg hpre]
    dsimp only [List.foldl_cons, List.foldl_nil]
    by_cases hcyc : opts.SegmentSize ≤ (framesOf rs0 ++ frame r).length
    · rw [if_pos hcyc]
      rw [writeStep_cycle _ _ _ _ _ _ _ _ hcyc]
      dsimp only
      rw [if_neg (by simp)]
      rw [List.drop_left, hdisk]
      rw [diskWrite_append_last _ _ _ _ hfreshw]
      rw [diskCreate_fresh _ _ (by
        intro p hp
        simp only [List.mem_append, List.mem_singleton] at hp
        rcases hp with hp | hp
        · have := buildDisk_indices 1 init p hp
          omega
        · rw [hp]
          simp)]
      rw [show init ++ [rs0 ++ [r], ([] : List Bytes)]
          = init ++ ([rs0 ++ [r]] ++ [[]]) by simp]
      simp [logOf, buildSegs_append, buildDisk_append, buildSegs, buildDisk,
        framesOf_concat, spansOf_concat0, framesOf, spansOf, List.length_append,
        Nat.add_assoc]
    · rw [if_neg hcyc]
      rw [writeStep_stay _ _ _ _ _ _ _ _ hcyc]
      dsimp only
      rw [if_pos (by
        have := frame_length_pos r
        simp only [List.length_append]
        omega)]
      rw [List.drop_left, hdisk]
      rw [diskWrite_append_last _ _ _ _ hfreshw]
      simp [logOf, buildSegs_append, buildDisk_append, buildSegs, buildDisk,
        framesOf_concat, spansOf_concat0, framesOf, spansOf, List.length_append,
        Nat.add_assoc]

theorem framesOf_ne_nil_of_ne (rs : List Bytes) (h : framesOf rs ≠ []) : rs ≠ [] := by
  intro hc
  rw [hc] at h
  exact h rfl

theorem pushRecord_ne_nil (S : Nat) (rss : List (List Bytes)) (r : Bytes) :
    pushRecord S rss r ≠ [] := by
  rw [pushRecord]
  try dsimp only
  split <;> split <;> simp

theorem pushRecord_flatten (S : Nat) (rss : List (List Bytes)) (r : Bytes)
    (hne : rss ≠ []) :
    (pushRecord S rss r).flatten = rss.flatten ++ [r] := by
  obtain ⟨init, rs0, rfl⟩ : ∃ init rs0, rss = init ++ [rs0] := by
    rcases List.eq_nil_or_concat rss with h | ⟨a, b, h⟩
    · exact absurd h hne
    · exact ⟨a, b, by simpa [List.concat_eq_append] using h⟩
  rw [pushRecord]
  try dsimp only
  rw [List.getLastD_concat, List.dropLast_concat]
  by_cases hpre : S < (framesOf rs0).length
  · rw [if_pos hpre]
    try dsimp only
    by_cases hcyc : S ≤ (framesOf ([] : List Bytes) ++ frame r).length
    · rw [if_pos hcyc]
      simp
    · rw [if_neg hcyc]
      simp
  · rw [if_neg hpre]
    try dsimp only
    by_cases hcyc : S ≤ (framesOf rs0 ++ frame r).length
    · rw [if_pos hcyc]
      simp
    · rw [if_neg hcyc]
      simp

/-- The non-tail segments of a partition stay nonempty through pushRecord:
a cycle only retires a tail whose cache is nonempty. -/
theorem pushRecord_dropLast_ne (S : Nat) (rss : List (List Bytes)) (r : Bytes)
    (hne : rss ≠ []) (hnt : ∀ rs ∈ rss.dropLast, rs ≠ []) :
    ∀ rs ∈ (pushRecord S rss r).dropLast, rs ≠ [] := by
  obtain ⟨init, rs0, rfl⟩ : ∃ init rs0, rss = init ++ [rs0] := by
    rcases List.eq_nil_or_concat rss with h | ⟨a, b, h⟩
    · exact absurd h hne
    · exact ⟨a, b, by simpa [List.concat_eq_append] using h⟩
  rw [List.dropLast_concat] at hnt
  rw [pushRecord]
  try dsimp only
  rw [List.getLastD_concat, List.dropLast_concat]
  by_cases hpre : S < (framesOf rs0).length
  · have hrs0 : rs0 ≠ [] := by
      apply framesOf_ne_nil_of_ne
      intro hc
      rw [hc] at hpre
      simp at hpre
    rw [if_pos hpre]
    try dsimp only
    by_cases hcyc : S ≤ (framesOf ([] : List Bytes) ++ frame r).length
    · rw [if_pos hcyc]
      rw [show init ++ [rs0] ++ [([] : List Bytes) ++ [r], []]
          = (init ++ [rs0] ++ [([] : List Bytes) ++ [r]]) ++ [[]] by simp]
      rw [List.dropLast_concat]
      intro rs hrs
      simp only [List.mem_append, List.mem_singleton] at hrs
      rcases hrs with (hrs | hrs) | hrs
      · exact hnt rs hrs
      · rw [hrs]; exact hrs0
      · rw [hrs]; simp
    · rw [if_neg hcyc]
      rw [show init ++ [rs0] ++ [([] : List Bytes) ++ [r]]
          = (init ++ [rs0]) ++ [([] : List Bytes) ++ [r]] by simp]
      rw [List.dropLast_concat]
      intro rs hrs
      simp only [List.mem_append, List.mem_singleton] at hrs
      rcases hrs with hrs | hrs
      · exact hnt rs hrs
      · rw [hrs]; exact hrs0
  · rw [if_neg hpre]
    try dsimp only
    by_cases hcyc : S ≤ (framesOf rs0 ++ frame r).length
    · rw [if_pos hcyc]
      rw [show init ++ [rs0 ++ [r], ([] : List Bytes)]
          = (init ++ [rs0 ++ [r]]) ++ [[]] by simp]
      rw [List.dropLast_concat]
      intro rs hrs
      simp only [List.mem_append, List.mem_singleton] at hrs
      rcases hrs with hrs | hrs
      · exact hnt rs hrs
      · rw [hrs]; simp
    · rw [if_neg hcyc]
      rw [List.dropLast_concat]
      exact hnt

/-- Folding Write over a run of records from an open, healthy partition
state performs the pushRecord fold. -/
theorem writeAll_push (opts : Options) (recs : List Bytes) :
    ∀ (rss : List (List Bytes)), rss ≠ [] →
    writeAll (logOf opts rss) (buildDisk 1 rss) recs
      = .ok (logOf opts (recs.foldl (pushRecord opts.SegmentSize) rss),
             buildDisk 1 (recs.foldl (pushRecord opts.SegmentSize) rss)) := by
  induction recs with
  | nil => intro rss hne; rfl
  | cons r rest ih =>
      intro rss hne
      rw [writeAll, List.foldlM_cons]
      rw [show Log.Write (logOf opts rss) (buildDisk 1 rss) r
          = .ok ((logOf opts rss).writeBatch (buildDisk 1 rss) [r]) from rfl]
      rw [writeBatch_push opts rss r hne]
      rw [show (Except.ok ((logOf opts (pushRecord opts.SegmentSize rss r)),
            buildDisk 1 (pushRecord opts.SegmentSize rss r))
            >>= fun st => List.foldlM (fun st r => Log.Write st.1 st.2 r) st rest)
          = writeAll (logOf opts (pushRecord opts.SegmentSize rss r))
              (buildDisk 1 (pushRecord opts.SegmentSize rss r)) rest from rfl]
      rw [ih (pushRecord opts.SegmentSize rss r) (pushRecord_ne_nil _ _ _)]
      rw [List.foldl_cons]

/-- Open on an empty directory creates segment 1 and returns the empty
partition state. -/
theorem open_empty (opts : Option Options) :
    Open [] opts
      = .ok (logOf ((opts.getD DefaultOptions).validate) [[]], buildDisk 1 [[]]) := rfl

/-! ### Reopening a directory (C2) -/

theorem buildPartial_cons₂ (j i : Nat) (a b : List Bytes) (l : List (List Bytes)) :
    buildPartial j i (a :: b :: l)
      = (if j = 0 then (⟨i, [], []⟩ : Segment) else ⟨i, framesOf a, spansOf a 0⟩)
        :: buildPartial (j - 1) (i + 1) (b :: l) := rfl

theorem filterMap_buildDisk (i : Nat) (rss : List (List Bytes)) (hi : i ≠ 0) :
    (buildDisk i rss).filterMap
      (fun f => if f.1 = 0 then none else some (⟨f.1, [], []⟩ : Segment))
      = emptySegs i rss := by
  induction rss generalizing i with
  | nil => rfl
  | cons rs rest ih =>
      rw [buildDisk, List.filterMap_cons]
      dsimp only
      rw [if_neg hi]
      rw [ih (i + 1) (by omega)]
      rfl

theorem emptySegs_concat_full (init : List (List Bytes)) (last : List Bytes) :
    ∀ (i : Nat),
    emptySegs i init ++ [⟨i + init.length, framesOf last, spansOf last 0⟩]
      = buildPartial 0 i (init ++ [last]) := by
  induction init with
  | nil => intro i; simp [emptySegs, buildPartial]
  | cons rs rest ih =>
      intro i
      obtain ⟨y, t, hyt⟩ : ∃ y t, rest ++ [last] = y :: t := by
        cases rest
        · exact ⟨last, [], rfl⟩
        · exact ⟨_, _, rfl⟩
      rw [List.cons_append, hyt, buildPartial_cons₂, ← hyt]
      rw [if_pos rfl]
      rw [← ih (i + 1)]
      simp only [emptySegs, List.cons_append, List.length_cons]
      rw [show i + (rest.length + 1) = i + 1 + rest.length by omega]

theorem buildPartial_length (rss : List (List Bytes)) :
    ∀ (j i : Nat), (buildPartial j i rss).length = rss.length := by
  induction rss with
  | nil => intro j i; rfl
  | cons rs rest ih =>
      intro j i
      cases rest with
      | nil => rfl
      | cons b l =>
          rw [buildPartial_cons₂]
          simp only [List.length_cons, ih]

theorem buildPartial_getLastD (init : List (List Bytes)) (last : List Bytes) :
    ∀ (j i : Nat) (dflt : Segment),
    (buildPartial j i (init ++ [last])).getLastD dflt
      = ⟨i + init.length, framesOf last, spansOf last 0⟩ := by
  induction init with
  | nil => intro j i d; simp [buildPartial]
  | cons rs rest ih =>
      intro j i d
      obtain ⟨y, t, hyt⟩ : ∃ y t, rest ++ [last] = y :: t := by
        cases rest
        · exact ⟨last, [], rfl⟩
        · exact ⟨_, _, rfl⟩
      rw [List.cons_append, hyt, buildPartial_cons₂, ← hyt]
      rw [List.getLastD_cons]
      rw [ih (j - 1) (i + 1)]
      simp only [List.length_cons]
      rw [show i + 1 + rest.length = i + (rest.length + 1) by omega]

theorem buildPartial_index (rss : List (List Bytes)) :
    ∀ (j i k : Nat) (hk : k < (buildPartial j i rss).length),
      ((buildPartial j i rss)[k]).index = i + k := by
  induction rss with
  | nil => intro j i k hk; simp [buildPartial] at hk
  | cons rs rest ih =>
      intro j i k hk
      cases rest with
      | nil =>
          have hk1 : k = 0 := by
            have := hk
            simp [buildPartial] at this
            omega
          subst hk1
          simp [buildPartial]
      | cons b l =>
          simp only [buildPartial_cons₂] at hk ⊢
          cases k with
          | zero =>
              simp only [List.getElem_cons_zero]
              split <;> rfl
          | succ k =>
              simp only [List.getElem_cons_succ]
              rw [ih (j - 1) (i + 1) k (by simpa using hk)]
              omega

theorem buildPartial_getD_lt (rss : List (List Bytes)) :
    ∀ (j i k : Nat), k + 1 < rss.length →
      (buildPartial j i rss).getD k default
        = if k < j then ⟨i + k, framesOf (rss.getD k []), spansOf (rss.getD k []) 0⟩
          else ⟨i + k, [], []⟩ := by
  induction rss with
  | nil => intro j i k hk; simp at hk
  | cons rs rest ih =>
      intro j i k hk
      cases rest with
      | nil => simp at hk
      | cons b l =>
          rw [buildPartial_cons₂]
          cases k with
          | zero =>
              simp only [List.getD_cons_zero]
              by_cases hj : j = 0
              · rw [if_pos hj, if_neg (by omega)]
                simp
              · rw [if_neg hj, if_pos (by omega)]
                simp
          | succ k =>
              rw [show ((if j = 0 then (⟨i, [], []⟩ : Segment)
                  else ⟨i, framesOf rs, spansOf rs 0⟩) :: buildPartial (j - 1) (i + 1)
                    (b :: l)).getD (k + 1) default
                  = (buildPartial (j - 1) (i + 1) (b :: l)).getD k default from rfl]
              rw [ih (j - 1) (i + 1) k (by simpa using hk)]
              by_cases hkj : k < j - 1
              · rw [if_pos hkj, if_pos (by omega)]
                simp only [List.getD_cons_succ]
                rw [show i + 1 + k = i + (k + 1) by omega]
              · rw [if_neg hkj]
                by_cases hj : j = 0
                · rw [if_neg (by omega)]
                  rw [show i + 1 + k = i + (k + 1) by omega]
                · rw [if_neg (by omega)]
                  rw [show i + 1 + k = i + (k + 1) by omega]

theorem buildPartial_set (rss : List (List Bytes)) :
    ∀ (j i : Nat), j + 1 < rss.length →
      (buildPartial j i rss).set j
          ⟨i + j, framesOf (rss.getD j []), spansOf (rss.getD j []) 0⟩
        = buildPartial (j + 1) i rss := by
  induction rss with
  | nil => intro j i hj; simp at hj
  | cons rs rest ih =>
      intro j i hj
      cases rest with
      | nil => simp at hj
      | cons b l =>
          rw [buildPartial_cons₂, buildPartial_cons₂]
          cases j with
          | zero =>
              simp only [List.set_cons_zero, List.getD_cons_zero]
              rw [if_neg (by omega)]
              simp
          | succ j =>
              simp only [List.set_cons_succ, List.getD_cons_succ, Nat.add_sub_cancel]
              rw [show i + (j + 1) = i + 1 + j by omega]
              rw [ih j (i + 1) (by simpa using hj)]
              rw [if_neg (by omega), if_neg (by omega)]

theorem diskRead_buildDisk_at (rss : List (List Bytes)) :
    ∀ (i k : Nat), k < rss.length →
      diskRead (buildDisk i rss) (i + k) = some (framesOf (rss.getD k [])) := by
  induction rss with
  | nil => intro i k hk; simp at hk
  | cons rs rest ih =>
      intro i k hk
      rw [buildDisk, diskRead]
      cases k with
      | zero =>
          rw [if_pos (by omega)]
          simp
      | succ k =>
          rw [if_neg (by omega)]
          have := ih (i + 1) k (by simpa using hk)
          rw [show i + (k + 1) = i + 1 + k by omega, this]
          rfl

theorem findSegmentLoop_contig : ∀ (fuel : Nat) (segs : List Segment) (t i j : Nat),
    (∀ (k : Nat) (hk : k < segs.length), (segs[k]).index = k + 1) →
    i ≤ t → t ≤ j → j ≤ segs.length → j - i < fuel →
    findSegmentLoop segs t fuel i j = t - 1 := by
  intro fuel
  induction fuel with
  | zero => intro segs t i j _ _ _ _ h; omega
  | succ f ih =>
      intro segs t i j hidx hit htj hjl hfuel
      rw [findSegmentLoop]
      by_cases hij : i < j
      · rw [if_pos hij]
        dsimp only
        have hhj : i + (j - i) / 2 < j := by omega
        have hhl : i + (j - i) / 2 < segs.length := by omega
        have hidxh : (segs.getD (i + (j - i) / 2) default).index = i + (j - i) / 2 + 1 := by
          rw [List.getD_eq_getElem segs default hhl]
          exact hidx _ hhl
        by_cases hcond : (segs.getD (i + (j - i) / 2) default).index ≤ t
        · rw [if_pos hcond]
          exact ih segs t (i + (j - i) / 2 + 1) j hidx (by rw [hidxh] at hcond; omega)
            htj hjl (by omega)
        · rw [if_neg hcond]
          exact ih segs t i (i + (j - i) / 2) hidx hit (by rw [hidxh] at hcond; omega)
            (by omega) (by omega)
      · rw [if_neg hij]
        omega

theorem getD_concat_length (init : List (List Bytes)) (last : List Bytes) :
    (init ++ [last]).getD init.length [] = last := by
  rw [List.getD_eq_getElem _ _ (by simp)]
  exact List.getElem_concat_length init last _ rfl _

/-- Reopening the directory of a record partition succeeds and yields the
reopened log with no non-tail segment loaded yet: discovery finds the stub
per file, the tail file is read back and re-parsed cleanly into its spans. -/
theorem open_buildDisk (opts : Option Options) (init : List (List Bytes)) (last : List Bytes)
    (h64 : ∀ r ∈ last, r.length < 2 ^ 64) :
    Open (buildDisk 1 (init ++ [last])) opts
      = .ok (reopenLog ((opts.getD DefaultOptions).validate) 0 (init ++ [last]),
             buildDisk 1 (init ++ [last])) := by
  rw [Open, loadLog]
  rw [filterMap_buildDisk 1 (init ++ [last]) (by omega)]
  rw [emptySegs_append]
  rw [show emptySegs (1 + init.length) [last] = [(⟨1 + init.length, [], []⟩ : Segment)] from rfl]
  rw [if_neg (by simp)]
  rw [List.getLastD_concat]
  rw [Log.loadSegmentEntries]
  dsimp only
  rw [diskRead_buildDisk_at (init ++ [last]) 1 init.length (by simp)]
  rw [getD_concat_length]
  dsimp only
  rw [parseFrames_clean last h64]
  dsimp only
  rw [List.dropLast_concat]
  rw [show ({ (⟨1 + init.length, [], []⟩ : Segment) with
        cbuf := framesOf last, cpos := spansOf last 0 })
      = (⟨1 + init.length, framesOf last, spansOf last 0⟩ : Segment) from rfl]
  rw [emptySegs_concat_full]
  rfl

theorem spansOf_length (rs : List Bytes) : ∀ (p : Nat), (spansOf rs p).length = rs.length := by
  induction rs with
  | nil => intro p; rfl
  | cons r rest ih => intro p; simp only [spansOf, List.length_cons, ih]

/-- Slicing a clean segment buffer at the parsed span of record `k` recovers
exactly the frame of record `k` (stated with an arbitrary prefix so the
offsets shift under induction). -/
theorem framesOf_slice (rs : List Bytes) : ∀ (k : Nat) (pre : Bytes), k < rs.length →
    (((pre ++ framesOf rs).drop (((spansOf rs pre.length).getD k default).pos)).take
        (((spansOf rs pre.length).getD k default).endp
          - ((spansOf rs pre.length).getD k default).pos))
      = frame (rs.getD k []) := by
  induction rs with
  | nil => intro k pre hk; simp at hk
  | cons r rest ih =>
      intro k pre hk
      cases k with
      | zero =>
          simp only [spansOf, List.getD_cons_zero]
          rw [show pre.length + (frame r).length - pre.length = (frame r).length by omega]
          rw [framesOf_cons, List.drop_left, List.take_left]
      | succ k =>
          simp only [spansOf, List.getD_cons_succ]
          rw [show pre.length + (frame r).length = (pre ++ frame r).length by simp]
          rw [framesOf_cons, ← List.append_assoc]
          exact ih k (pre ++ frame r) (by simpa using hk)

/-- Read on a segment that loadSegment resolves to a cleanly parsed record
run returns record `k` of that run, framing stripped, for `k` within the
run. -/
theorem Read_resolved_ok (l lv : Log) (d : Disk) (sg si k : Nat) (rs : List Bytes)
    (hc : l.corrupt = false) (hcl : l.closed = false) (hsg : sg ≠ 0)
    (hload : l.loadSegment d sg = .ok (⟨si, framesOf rs, spansOf rs 0⟩, lv))
    (h64 : ∀ r ∈ rs, r.length < 2 ^ 64) (hk : k < rs.length) :
    l.Read d sg k = .ok (rs.getD k [], lv) := by
  rw [Log.Read, hc, hcl]
  simp only [Bool.false_eq_true, if_false]
  rw [if_neg hsg, hload]
  dsimp only
  rw [if_neg (show ¬ ((spansOf rs 0).length ≤ k) by rw [spansOf_length]; omega)]
  have hmem : rs.getD k [] ∈ rs := by
    rw [List.getD_eq_getElem rs [] hk]
    exact List.getElem_mem hk
  have hslice := framesOf_slice rs k [] hk
  simp only [List.nil_append, List.length_nil] at hslice
  rw [hslice]
  rw [frame]
  rw [uvarintDecode_encode (rs.getD k []).length (rs.getD k []) (h64 _ hmem)]
  dsimp only
  rw [if_neg (show ¬ ((uvarintEncode (rs.getD k []).length ++ rs.getD k []).length
        - (uvarintEncode (rs.getD k []).length).length < (rs.getD k []).length) by
    rw [List.length_append]; omega)]
  rw [List.drop_left, List.take_length]

/-- Read past the record count of a resolved segment returns the
end-of-segment sentinel. -/
theorem Read_resolved_eof (l lv : Log) (d : Disk) (sg si k : Nat) (rs : List Bytes)
    (hc : l.corrupt = false) (hcl : l.closed = false) (hsg : sg ≠ 0)
    (hload : l.loadSegment d sg = .ok (⟨si, framesOf rs, spansOf rs 0⟩, lv))
    (hk : rs.length ≤ k) :
    l.Read d sg k = .error ErrEOF := by
  rw [Log.Read, hc, hcl]
  simp only [Bool.false_eq_true, if_false]
  rw [if_neg hsg, hload]
  dsimp only
  rw [if_pos (show (spansOf rs 0).length ≤ k by rw [spansOf_length]; exact hk)]

/-- Any segment number at or past the tail index of a reopened log resolves
to the (already parsed) tail segment, leaving the log unchanged. -/
theorem loadSegment_reopen_tail (opts : Options) (j sg : Nat) (init : List (List Bytes))
    (last : List Bytes) (d : Disk) (hsg : init.length + 1 ≤ sg) :
    (reopenLog opts j (init ++ [last])).loadSegment d sg
      = .ok (⟨1 + init.length, framesOf last, spansOf last 0⟩,
             reopenLog opts j (init ++ [last])) := by
  rw [Log.loadSegment]
  rw [show (reopenLog opts j (init ++ [last])).segments
      = buildPartial j 1 (init ++ [last]) from rfl]
  rw [buildPartial_getLastD]
  rw [if_pos (show (⟨1 + init.length, framesOf last, spansOf last 0⟩ : Segment).index ≤ sg by
    dsimp only; omega)]

/-- Lazily loading the first not-yet-cached non-tail segment of a reopened
log parses its file into the cache and advances the loaded prefix by one. -/
theorem loadSegment_reopen_lazy (opts : Options) (rss : List (List Bytes)) (j : Nat)
    (hj : j + 1 < rss.length)
    (h64 : ∀ r ∈ rss.getD j [], r.length < 2 ^ 64) :
    (reopenLog opts j rss).loadSegment (buildDisk 1 rss) (j + 1)
      = .ok (⟨1 + j, framesOf (rss.getD j []), spansOf (rss.getD j []) 0⟩,
             reopenLog opts (j + 1) rss) := by
  obtain ⟨init, last, hrss⟩ : ∃ init last, rss = init ++ [last] := by
    rcases List.eq_nil_or_concat rss with h1 | ⟨L, b, h1⟩
    · rw [h1] at hj; simp at hj
    · exact ⟨L, b, by rw [h1, List.concat_eq_append]⟩
  subst hrss
  have hlen : (init ++ [last]).length = init.length + 1 := by simp
  have hjl : j < init.length := by rw [hlen] at hj; omega
  rw [Log.loadSegment]
  rw [show (reopenLog opts j (init ++ [last])).segments
      = buildPartial j 1 (init ++ [last]) from rfl]
  rw [buildPartial_getLastD]
  rw [if_neg (show ¬ ((⟨1 + init.length, framesOf last, spansOf last 0⟩ : Segment).index ≤ j + 1)
      by dsimp only; omega)]
  have hfind : (reopenLog opts j (init ++ [last])).findSegment (j + 1) = j := by
    rw [Log.findSegment]
    rw [show (reopenLog opts j (init ++ [last])).segments
        = buildPartial j 1 (init ++ [last]) from rfl]
    have hlenp := buildPartial_length (init ++ [last]) j 1
    have hloop := findSegmentLoop_contig ((buildPartial j 1 (init ++ [last])).length + 1)
      (buildPartial j 1 (init ++ [last])) (j + 1) 0 (buildPartial j 1 (init ++ [last])).length
      (fun k hk => by rw [buildPartial_index]; omega)
      (by omega) (by rw [hlenp, hlen]; omega) le_rfl (by omega)
    rw [hloop]
    omega
  rw [hfind]
  dsimp only
  rw [buildPartial_getD_lt (init ++ [last]) j 1 j (by rw [hlen]; omega)]
  rw [if_neg (lt_irrefl j)]
  dsimp only
  rw [if_pos (show ([] : List bpos).length = 0 from rfl)]
  rw [Log.loadSegmentEntries]
  dsimp only
  rw [diskRead_buildDisk_at (init ++ [last]) 1 j (by rw [hlen]; omega)]
  dsimp only
  rw [parseFrames_clean ((init ++ [last]).getD j []) h64]
  dsimp only
  rw [show ({ (⟨1 + j, [], []⟩ : Segment) with
        cbuf := framesOf ((init ++ [last]).getD j []),
        cpos := spansOf ((init ++ [last]).getD j []) 0 })
      = (⟨1 + j, framesOf ((init ++ [last]).getD j []),
          spansOf ((init ++ [last]).getD j []) 0⟩ : Segment) from rfl]
  rw [buildPartial_set (init ++ [last]) j 1 (by rw [hlen]; omega)]
  rfl

/-- Loading an already-cached non-tail segment of a reopened log returns it
from the cache without touching the log state. -/
theorem loadSegment_reopen_loaded (opts : Options) (rss : List (List Bytes)) (j k : Nat)
    (hk : k + 1 < rss.length) (hkj : k < j)
    (hne : rss.getD k [] ≠ []) :
    (reopenLog opts j rss).loadSegment (buildDisk 1 rss) (k + 1)
      = .ok (⟨1 + k, framesOf (rss.getD k []), spansOf (rss.getD k []) 0⟩,
             reopenLog opts j rss) := by
  obtain ⟨init, last, hrss⟩ : ∃ init last, rss = init ++ [last] := by
    rcases List.eq_nil_or_concat rss with h1 | ⟨L, b, h1⟩
    · rw [h1] at hk; simp at hk
    · exact ⟨L, b, by rw [h1, List.concat_eq_append]⟩
  subst hrss
  have hlen : (init ++ [last]).length = init.length + 1 := by simp
  have hkl : k < init.length := by rw [hlen] at hk; omega
  rw [Log.loadSegment]
  rw [show (reopenLog opts j (init ++ [last])).segments
      = buildPartial j 1 (init ++ [last]) from rfl]
  rw [buildPartial_getLastD]
  rw [if_neg (show ¬ ((⟨1 + init.length, framesOf last, spansOf last 0⟩ : Segment).index ≤ k + 1)
      by dsimp only; omega)]
  have hfind : (reopenLog opts j (init ++ [last])).findSegment (k + 1) = k := by
    rw [Log.findSegment]
    rw [show (reopenLog opts j (init ++ [last])).segments
        = buildPartial j 1 (init ++ [last]) from rfl]
    have hlenp := buildPartial_length (init ++ [last]) j 1
    have hloop := findSegmentLoop_contig ((buildPartial j 1 (init ++ [last])).length + 1)
      (buildPartial j 1 (init ++ [last])) (k + 1) 0 (buildPartial j 1 (init ++ [last])).length
      (fun k2 hk2 => by rw [buildPartial_index]; omega)
      (by omega) (by rw [hlenp, hlen]; omega) le_rfl (by omega)
    rw [hloop]
    omega
  rw [hfind]
  dsimp only
  rw [buildPartial_getD_lt (init ++ [last]) j 1 k (by rw [hlen]; omega)]
  rw [if_pos hkj]
  dsimp only
  rw [if_neg (show ¬ ((spansOf ((init ++ [last]).getD k []) 0).length = 0) by
    rw [spansOf_length]
    intro h0
    exact hne (List.eq_nil_of_length_eq_zero h0))]

/-- Sequential reads over a stably resolved segment return exactly the
records from `idx` on, stopping at the sentinel, and leave the log as is. -/
theorem scanSeg_stable (d : Disk) (sg si : Nat) (l : Log) (rs : List Bytes)
    (hc : l.corrupt = false) (hcl : l.closed = false) (hsg : sg ≠ 0)
    (hload : l.loadSegment d sg = .ok (⟨si, framesOf rs, spansOf rs 0⟩, l))
    (h64 : ∀ r ∈ rs, r.length < 2 ^ 64) :
    ∀ (fuel idx : Nat), rs.length - idx < fuel →
      scanSeg d sg fuel idx l = (rs.drop idx, l) := by
  intro fuel
  induction fuel with
  | zero => intro idx h; omega
  | succ f ih =>
      intro idx h
      rw [scanSeg]
      by_cases hidx : idx < rs.length
      · rw [Read_resolved_ok l l d sg si idx rs hc hcl hsg hload h64 hidx]
        dsimp only
        rw [ih (idx + 1) (by omega)]
        dsimp only
        rw [List.drop_eq_getElem_cons hidx]
        rw [List.getD_eq_getElem rs [] hidx]
      · rw [Read_resolved_eof l l d sg si idx rs hc hcl hsg hload (by omega)]
        dsimp only
        rw [List.drop_eq_nil_of_le (by omega)]

/-- The first sequential read of a nonempty not-yet-cached segment performs
its lazy load; the remaining reads proceed over the loaded log state, so the
whole pass returns the records of the segment and the loaded state. -/
theorem scanSeg_lazy (d : Disk) (sg si : Nat) (l lv : Log) (rs : List Bytes)
    (hc : l.corrupt = false) (hcl : l.closed = false) (hsg : sg ≠ 0)
    (hload : l.loadSegment d sg = .ok (⟨si, framesOf rs, spansOf rs 0⟩, lv))
    (hloadv : lv.loadSegment d sg = .ok (⟨si, framesOf rs, spansOf rs 0⟩, lv))
    (hcv : lv.corrupt = false) (hclv : lv.closed = false)
    (h64 : ∀ r ∈ rs, r.length < 2 ^ 64) (hne : rs ≠ [])
    (fuel : Nat) (hfuel : rs.length ≤ fuel) :
    scanSeg d sg (fuel + 1) 0 l = (rs, lv) := by
  have h0 : 0 < rs.length := List.length_pos.mpr hne
  rw [scanSeg]
  rw [Read_resolved_ok l lv d sg si 0 rs hc hcl hsg hload h64 h0]
  dsimp only
  rw [scanSeg_stable d sg si lv rs hcv hclv hsg hloadv h64 fuel (0 + 1) (by omega)]
  dsimp only
  rw [List.getD_eq_getElem rs [] h0, ← List.drop_eq_getElem_cons h0, List.drop_zero]

theorem foldl_pushRecord_ne (S : Nat) (recs : List Bytes) :
    ∀ (rss : List (List Bytes)), rss ≠ [] → recs.foldl (pushRecord S) rss ≠ [] := by
  induction recs with
  | nil => intro rss h; exact h
  | cons r rest ih =>
      intro rss h
      rw [List.foldl_cons]
      exact ih (pushRecord S rss r) (pushRecord_ne_nil S rss r)

/-- The records of a partition reached by appending one record at a time are
exactly the appended records, in order, after the initial content. -/
theorem foldl_pushRecord_flatten (S : Nat) (recs : List Bytes) :
    ∀ (rss : List (List Bytes)), rss ≠ [] →
      (recs.foldl (pushRecord S) rss).flatten = rss.flatten ++ recs := by
  induction recs with
  | nil => intro rss h; simp
  | cons r rest ih =>
      intro rss h
      rw [List.foldl_cons]
      rw [ih (pushRecord S rss r) (pushRecord_ne_nil S rss r)]
      rw [pushRecord_flatten S rss r h]
      simp

theorem foldl_pushRecord_dropLast (S : Nat) (recs : List Bytes) :
    ∀ (rss : List (List Bytes)), rss ≠ [] → (∀ rs ∈ rss.dropLast, rs ≠ []) →
      ∀ rs ∈ (recs.foldl (pushRecord S) rss).dropLast, rs ≠ [] := by
  induction recs with
  | nil => intro rss _ h2; exact h2
  | cons r rest ih =>
      intro rss h1 h2
      rw [List.foldl_cons]
      exact ih (pushRecord S rss r) (pushRecord_ne_nil S rss r)
        (pushRecord_dropLast_ne S rss r h1 h2)

/-- Scanning the non-tail segments s+1 .. s+n of a reopened log in order:
each pass lazily loads its segment, returns its records, and advances the
cached prefix of the log by one segment. -/
theorem scanLog_nontail (opts : Options) (rss : List (List Bytes)) (fuel : Nat)
    (h64 : ∀ rs ∈ rss, ∀ r ∈ rs, r.length < 2 ^ 64)
    (hne : ∀ k, k + 1 < rss.length → rss.getD k [] ≠ [])
    (hfuel : ∀ rs ∈ rss, rs.length ≤ fuel) :
    ∀ (n s : Nat) (A : List Bytes), s + n + 1 ≤ rss.length →
      (List.range' s n).foldl
        (fun acc k =>
          let p := scanSeg (buildDisk 1 rss) (k + 1) (fuel + 1) 0 acc.2
          (acc.1 ++ p.1, p.2)) (A, reopenLog opts s rss)
      = (A ++ ((rss.drop s).take n).flatten, reopenLog opts (s + n) rss) := by
  intro n
  induction n with
  | zero =>
      intro s A h
      simp
  | succ n ih =>
      intro s A h
      have hs : s < rss.length := by omega
      have hs1 : s + 1 < rss.length := by omega
      have hmem : rss.getD s [] ∈ rss := by
        rw [List.getD_eq_getElem rss [] hs]
        exact List.getElem_mem hs
      have hnei : rss.getD s [] ≠ [] := hne s hs1
      rw [List.range'_succ, List.foldl_cons]
      dsimp only
      rw [scanSeg_lazy (buildDisk 1 rss) (s + 1) (1 + s) (reopenLog opts s rss)
        (reopenLog opts (s + 1) rss) (rss.getD s []) rfl rfl (Nat.succ_ne_zero s)
        (loadSegment_reopen_lazy opts rss s hs1 (h64 _ hmem))
        (loadSegment_reopen_loaded opts rss (s + 1) s hs1 (by omega) hnei)
        rfl rfl (h64 _ hmem) hnei fuel (hfuel _ hmem)]
      dsimp only
      rw [ih (s + 1) (A ++ rss.getD s []) (by omega)]
      rw [List.drop_eq_getElem_cons hs, List.take_succ_cons, List.flatten_cons]
      rw [← List.append_assoc]
      rw [List.getD_eq_getElem rss [] hs]
      rw [show s + 1 + n = s + (n + 1) by omega]

/-- The sequential reading protocol on a freshly reopened log returns every
stored record in order and caches every segment along the way (the tail was
already parsed at open). -/
theorem scanLog_reopen (opts : Options) (init : List (List Bytes)) (last : List Bytes)
    (fuel : Nat)
    (h64 : ∀ rs ∈ init ++ [last], ∀ r ∈ rs, r.length < 2 ^ 64)
    (hne : ∀ k, k + 1 < (init ++ [last]).length → (init ++ [last]).getD k [] ≠ [])
    (hfuel : ∀ rs ∈ init ++ [last], rs.length ≤ fuel) :
    scanLog (reopenLog opts 0 (init ++ [last])) (buildDisk 1 (init ++ [last])) (fuel + 1)
      = ((init ++ [last]).flatten, reopenLog opts init.length (init ++ [last])) := by
  rw [scanLog]
  rw [show (reopenLog opts 0 (init ++ [last])).Segments = init.length + 1 by
    rw [Log.Segments, show (reopenLog opts 0 (init ++ [last])).segments
      = buildPartial 0 1 (init ++ [last]) from rfl, buildPartial_length]
    simp]
  rw [List.range_succ]
  rw [List.foldl_append]
  rw [List.range_eq_range']
  rw [scanLog_nontail opts (init ++ [last]) fuel h64 hne hfuel init.length 0 [] (by simp)]
  rw [List.foldl_cons, List.foldl_nil]
  dsimp only
  rw [scanSeg_stable (buildDisk 1 (init ++ [last])) (init.length + 1) (1 + init.length)
    (reopenLog opts (0 + init.length) (init ++ [last])) last rfl rfl
    (Nat.succ_ne_zero init.length)
    (loadSegment_reopen_tail opts (0 + init.length) (init.length + 1) init last
      (buildDisk 1 (init ++ [last])) le_rfl)
    (h64 last (by simp)) (fuel + 1) 0 (by have := hfuel last (by simp); omega)]
  dsimp only
  simp only [List.nil_append, List.drop_zero, Nat.zero_add]
  rw [List.take_left]
  simp [List.flatten_append]

/-- C2: order preservation across restart.  Writing records rec_1..rec_n
(n at least 1) with Write to a freshly opened log, closing it, reopening the
resulting directory, and reading sequentially (segments 1 up to Segments,
record index 0 upward until the end-of-segment sentinel) yields exactly
rec_1..rec_n in the original order; the tail segment re-parses into its span
cache deterministically at Open. -/
theorem C2_order_preservation (recs : List Bytes) (opts : Option Options)
    (hrne : recs ≠ []) (h64 : ∀ r ∈ recs, r.length < 2 ^ 64) :
    ∃ (l0 l1 lr : Log) (d1 : Disk),
      Open [] opts = .ok (l0, buildDisk 1 [[]])
      ∧ writeAll l0 (buildDisk 1 [[]]) recs = .ok (l1, d1)
      ∧ (Log.Close l1).1 = .ok ()
      ∧ Open d1 opts = .ok (lr, d1)
      ∧ (scanLog lr d1 (recs.length + 1)).1 = recs := by
  have hu := hrne
  set vopts := (opts.getD DefaultOptions).validate with hv
  set S := vopts.SegmentSize with hS
  set rssF := recs.foldl (pushRecord S) [[]] with hF
  have hFne : rssF ≠ [] := foldl_pushRecord_ne S recs [[]] (by simp)
  have hflat : rssF.flatten = recs := by
    rw [hF, foldl_pushRecord_flatten S recs [[]] (by simp)]
    simp
  have h64seg : ∀ rs ∈ rssF, ∀ r ∈ rs, r.length < 2 ^ 64 := by
    intro rs hrs r hr
    exact h64 r (by rw [← hflat]; exact List.mem_flatten.mpr ⟨rs, hrs, hr⟩)
  have hfuelseg : ∀ rs ∈ rssF, rs.length ≤ recs.length := by
    intro rs hrs
    have hsub := (List.sublist_flatten_of_mem hrs).length_le
    rw [hflat] at hsub
    exact hsub
  have hdrop : ∀ rs ∈ rssF.dropLast, rs ≠ [] :=
    foldl_pushRecord_dropLast S recs [[]] (by simp) (by simp)
  have hnek : ∀ k, k + 1 < rssF.length → rssF.getD k [] ≠ [] := by
    intro k hk
    have hk2 : k < rssF.dropLast.length := by
      rw [List.length_dropLast]; omega
    have hmem : rssF.getD k [] ∈ rssF.dropLast := by
      rw [List.getD_eq_getElem rssF [] (by omega)]
      rw [← List.getElem_dropLast rssF k hk2]
      exact List.getElem_mem hk2
    exact hdrop _ hmem
  obtain ⟨init, lastF, hdecomp⟩ : ∃ i l2, rssF = i ++ [l2] := by
    rcases List.eq_nil_or_concat rssF with h1 | ⟨a, b, h1⟩
    · exact absurd h1 hFne
    · exact ⟨a, b, by rw [h1, List.concat_eq_append]⟩
  refine ⟨logOf vopts [[]], logOf vopts rssF, reopenLog vopts 0 rssF, buildDisk 1 rssF,
    ?_, ?_, ?_, ?_, ?_⟩
  · exact open_empty opts
  · exact writeAll_push vopts recs [[]] (by simp)
  · rfl
  · rw [hdecomp]
    exact open_buildDisk opts init lastF (h64seg lastF (by rw [hdecomp]; simp))
  · rw [hdecomp]
    rw [scanLog_reopen vopts init lastF recs.length
      (by rw [← hdecomp]; exact h64seg) (by rw [← hdecomp]; exact hnek)
      (by rw [← hdecomp]; exact hfuelseg)]
    dsimp only
    rw [← hdecomp]
    exact hflat

/-- Witness for C2 on three concrete records under the default options. -/
theorem C2_order_preservation_witness :
    ∃ (l0 l1 lr : Log) (d1 : Disk),
      Open [] none = .ok (l0, buildDisk 1 [[]])
      ∧ writeAll l0 (buildDisk 1 [[]]) [[1], [2, 2], [3, 3, 3]] = .ok (l1, d1)
      ∧ (Log.Close l1).1 = .ok ()
      ∧ Open d1 none = .ok (lr, d1)
      ∧ (scanLog lr d1 ([[1], [2, 2], [3, 3, 3]].length + 1)).1 = [[1], [2, 2], [3, 3, 3]] :=
  C2_order_preservation [[1], [2, 2], [3, 3, 3]] none (by decide) (by decide)

end Gen
